import Mathlib

/-!
# Verification of the mail-corpus ingestion and batching core

Shallow embedding, in Lean 4, of the string-processing and batching core of
the repository (an Express app that parses `.eml` MIME messages and office
attachments into flat JSON records and answers questions over them through a
remote model).  JavaScript strings are sequences of UTF-16 code units; we
model them as Lean `String`/`List Char`, which agrees with the source on the
Basic Multilingual Plane (all inputs exercised here are ASCII).  Calls into
the Node runtime's `Buffer` transcoding (base64 and latin1/utf8
re-interpretation) are external to the algorithmic core and are modelled as
an explicit decoding oracle (`JsExt`); a `none` result models the external
call throwing, which the source guards with `try`/`catch`.
-/

namespace Kilburn

/-! ## Character classes and elementary string utilities -/

/-- The JavaScript whitespace class: the set matched by the regex `\s` and
trimmed by `String.prototype.trim`. -/
def isJsWs (c : Char) : Bool :=
  c.toNat = 0x09 ∨ c.toNat = 0x0A ∨ c.toNat = 0x0B ∨ c.toNat = 0x0C ∨
  c.toNat = 0x0D ∨ c.toNat = 0x20 ∨ c.toNat = 0xA0 ∨ c.toNat = 0x1680 ∨
  (0x2000 ≤ c.toNat ∧ c.toNat ≤ 0x200A) ∨ c.toNat = 0x2028 ∨
  c.toNat = 0x2029 ∨ c.toNat = 0x202F ∨ c.toNat = 0x205F ∨
  c.toNat = 0x3000 ∨ c.toNat = 0xFEFF

/-- ASCII lowercasing of one character, as `String.prototype.toLowerCase`
acts on the ASCII range (the only range the source lowercases in practice). -/
def lowerChar (c : Char) : Char :=
  if 'A' ≤ c ∧ c ≤ 'Z' then Char.ofNat (c.toNat + 32) else c

/-- ASCII uppercasing of one character (`String.prototype.toUpperCase`). -/
def upperChar (c : Char) : Char :=
  if 'a' ≤ c ∧ c ≤ 'z' then Char.ofNat (c.toNat - 32) else c

def lowerL (l : List Char) : List Char := l.map lowerChar

def upperL (l : List Char) : List Char := l.map upperChar

/-- JavaScript `String.prototype.trim`: drop JavaScript whitespace from both ends. -/
def trimL (l : List Char) : List Char :=
  List.rdropWhile isJsWs (l.dropWhile isJsWs)

/-- The `trim` operation on `String`. -/
def trimS (s : String) : String := (trimL s.data).asString

/-- Index of the first occurrence of `pat` as a contiguous sublist of `l`
(JavaScript `String.prototype.indexOf`). -/
def idxOfSub (pat : List Char) : List Char → Option Nat
  | [] => if pat.isPrefixOf [] then some 0 else none
  | c :: rest =>
    if pat.isPrefixOf (c :: rest) then some 0
    else (idxOfSub pat rest).map (· + 1)

/-- JavaScript `String.prototype.includes`. -/
def containsSub (pat l : List Char) : Bool := (idxOfSub pat l).isSome

/-! ## Records and JSON serialization

A `Record` is either an email (built by `parseEml`, field order
`id, filename, type, from, to, subject, date, body`) or an attachment
(built by `parseAttachment`, field order
`id, filename, type, file_type, body`).  `JSON.stringify` serializes object
fields in insertion order, so each variant has a fixed serialized shape. -/

inductive Record where
  | email (id : Nat) (filename fromF toF subject date body : String)
  | attachment (id : Nat) (filename fileType body : String)
deriving DecidableEq

def Record.id : Record → Nat
  | .email i _ _ _ _ _ _ => i
  | .attachment i _ _ _ => i

def Record.filename : Record → String
  | .email _ f _ _ _ _ _ => f
  | .attachment _ f _ _ => f

def Record.body : Record → String
  | .email _ _ _ _ _ _ b => b
  | .attachment _ _ _ b => b

def Record.fromF : Record → String
  | .email _ _ fr _ _ _ _ => fr
  | .attachment _ _ _ _ => ""

def Record.toF : Record → String
  | .email _ _ _ t _ _ _ => t
  | .attachment _ _ _ _ => ""

def Record.subject : Record → String
  | .email _ _ _ _ s _ _ => s
  | .attachment _ _ _ _ => ""

def Record.isAttachment : Record → Bool
  | .email _ _ _ _ _ _ _ => false
  | .attachment _ _ _ _ => true

/-- One hexadecimal digit, lowercase, as produced by `JSON.stringify`'s
escape of control characters. -/
def hexDigit (n : Nat) : Char :=
  if n < 10 then Char.ofNat (48 + n) else Char.ofNat (87 + n)

/-- The escape of a single character inside a JSON string literal,
following `JSON.stringify`. -/
def jsonEscapeChar (c : Char) : List Char :=
  if c = '"' then ['\\', '"']
  else if c = '\\' then ['\\', '\\']
  else if c.toNat = 8 then ['\\', 'b']
  else if c.toNat = 9 then ['\\', 't']
  else if c.toNat = 10 then ['\\', 'n']
  else if c.toNat = 12 then ['\\', 'f']
  else if c.toNat = 13 then ['\\', 'r']
  else if c.toNat < 32 then ['\\', 'u', '0', '0', hexDigit (c.toNat / 16), hexDigit (c.toNat % 16)]
  else [c]

/-- A JSON string literal: quoted and escaped (`JSON.stringify` on a string). -/
def jsonQuote (s : String) : String :=
  ⟨'"' :: (s.data.map jsonEscapeChar).flatten ++ ['"']⟩

/-- Serialization `JSON.stringify` of a full record, with the field order produced by the
source's object literals. -/
def serializeRecord : Record → String
  | .email i f fr t s d b =>
    "\x7b\"id\":" ++ toString i ++ ",\"filename\":" ++ jsonQuote f ++
    ",\"type\":\"email\",\"from\":" ++ jsonQuote fr ++ ",\"to\":" ++ jsonQuote t ++
    ",\"subject\":" ++ jsonQuote s ++ ",\"date\":" ++ jsonQuote d ++
    ",\"body\":" ++ jsonQuote b ++ "\x7d"
  | .attachment i f ft b =>
    "\x7b\"id\":" ++ toString i ++ ",\"filename\":" ++ jsonQuote f ++
    ",\"type\":\"attachment\",\"file_type\":" ++ jsonQuote ft ++
    ",\"body\":" ++ jsonQuote b ++ "\x7d"

/-- Serialization `JSON.stringify(compactRecord(r))` (part_000 lines 288–305):
the compacted projection drops `id`/`filename` bookkeeping differently per
variant and truncates the body (4000 chars for attachments, 500 for
emails). -/
def serializeCompact : Record → String
  | .email _ _ fr t s d b =>
    "\x7b\"type\":\"email\",\"from\":" ++ jsonQuote fr ++ ",\"to\":" ++ jsonQuote t ++
    ",\"subject\":" ++ jsonQuote s ++ ",\"date\":" ++ jsonQuote d ++
    ",\"body\":" ++ jsonQuote (b.take 500) ++ "\x7d"
  | .attachment _ f ft b =>
    "\x7b\"type\":\"attachment\",\"filename\":" ++ jsonQuote f ++
    ",\"file_type\":" ++ jsonQuote ft ++ ",\"content\":" ++ jsonQuote (b.take 4000) ++ "\x7d"

/-! ## The flat chunker (`buildChunks`, part_000 lines 307–327)

`buildChunks` maps every record through `JSON.stringify(compactRecord(r))`
and then greedily groups the resulting serialized lines.  The grouping logic
is a pure function of the list of serialized lines, embedded here as
`buildChunksGo`/`buildChunksLines`; `chunkSizeOf` is the computed character
budget `Math.ceil(totalChars / TARGET_CHUNKS)`. -/

def TARGET_CHUNKS : Nat := 3

/-- Sum of the serialized lengths of a list of lines. -/
def sumLen (lines : List String) : Nat := (lines.map String.length).sum

/-- The budget `Math.ceil(totalChars / TARGET_CHUNKS)` on natural totals. -/
def chunkSizeOf (compacted : List String) : Nat :=
  (sumLen compacted + (TARGET_CHUNKS - 1)) / TARGET_CHUNKS

/-- The loop body of `buildChunks`: `current`/`currentSize` are the chunk
being filled and its accumulated size; a line that would overflow a
non-empty chunk closes it first. -/
def buildChunksGo (chunkSize : Nat) : List String → List String → Nat → List (List String)
  | [], current, _ => if current = [] then [] else [current]
  | line :: rest, current, currentSize =>
    if chunkSize < currentSize + line.length ∧ current ≠ [] then
      current :: buildChunksGo chunkSize rest [line] line.length
    else
      buildChunksGo chunkSize rest (current ++ [line]) (currentSize + line.length)

/-- The chunk grouping of `buildChunks` on the list of already-serialized compacted records. -/
def buildChunksLines (compacted : List String) : List (List String) :=
  buildChunksGo (chunkSizeOf compacted) compacted [] 0

/-- A chunk is within budget, or is a single oversized record. -/
def okChunk (b : Nat) (c : List String) : Prop :=
  sumLen c ≤ b ∨ ∃ s, c = [s] ∧ b < s.length

theorem buildChunksGo_join (b : Nat) :
    ∀ (rest current : List String) (size : Nat),
      (buildChunksGo b rest current size).flatten = current ++ rest := by
  intro rest
  induction rest with
  | nil =>
    intro current size
    by_cases h : current = []
    · simp [buildChunksGo, h]
    · simp [buildChunksGo, h]
  | cons line rest ih =>
    intro current size
    by_cases h : b < size + line.length ∧ current ≠ []
    · simp [buildChunksGo, h, ih]
    · simp only [buildChunksGo, if_neg h]
      simp [ih]

theorem buildChunksGo_ok (b : Nat) :
    ∀ (rest current : List String) (size : Nat),
      size = sumLen current → (current = [] ∨ okChunk b current) →
      ∀ c ∈ buildChunksGo b rest current size, okChunk b c := by
  intro rest
  induction rest with
  | nil =>
    intro current size hsize hok c hc
    by_cases h : current = []
    · simp [buildChunksGo, h] at hc
    · simp only [buildChunksGo, if_neg h, List.mem_singleton] at hc
      subst hc
      exact hok.resolve_left h
  | cons line rest ih =>
    intro current size hsize hok c hc
    by_cases h : b < size + line.length ∧ current ≠ []
    · simp only [buildChunksGo, if_pos h, List.mem_cons] at hc
      rcases hc with hc | hc
      · subst hc
        exact hok.resolve_left h.2
      · refine ih [line] line.length (by simp [sumLen]) ?_ c hc
        rcases le_or_lt line.length b with hle | hlt
        · exact Or.inr (Or.inl (by simpa [sumLen] using hle))
        · exact Or.inr (Or.inr ⟨line, rfl, hlt⟩)
    · simp only [buildChunksGo, if_neg h] at hc
      refine ih (current ++ [line]) (size + line.length)
        (by simp [sumLen, hsize]) ?_ c hc
      rcases Decidable.not_and_iff_or_not.mp h with h1 | h1
      · refine Or.inr (Or.inl ?_)
        have : size + line.length ≤ b := by omega
        simp only [sumLen, List.map_append, List.sum_append] at *
        simpa [sumLen, ← hsize] using this
      · have hcur : current = [] := Decidable.not_not.mp h1
        subst hcur
        rcases le_or_lt line.length b with hle | hlt
        · exact Or.inr (Or.inl (by simpa [sumLen] using hle))
        · exact Or.inr (Or.inr ⟨line, rfl, hlt⟩)

/-- Full `buildChunks` exactly as in the source: serialize every record through
the compact projection, compute the budget, then greedily group. -/
def buildChunks (records : List Record) : List (List String) :=
  buildChunksLines (records.map serializeCompact)

/-- C1: for every list of records, every chunk produced by `buildChunks` is
within the computed chunk-size budget unless it is a single record whose
serialization alone exceeds the budget; and flattening the chunks in order
reproduces the serialized record list exactly. -/
theorem buildChunks_bounded_and_lossless (records : List Record) :
    (∀ c ∈ buildChunks records,
      sumLen c ≤ chunkSizeOf (records.map serializeCompact) ∨
      ∃ s, c = [s] ∧ chunkSizeOf (records.map serializeCompact) < s.length) ∧
    (buildChunks records).flatten = records.map serializeCompact := by
  constructor
  · intro c hc
    exact buildChunksGo_ok _ _ _ 0 (by simp [sumLen]) (Or.inl rfl) c hc
  · exact buildChunksGo_join _ _ [] 0

/-- Closed instance of `buildChunks_bounded_and_lossless`, discharging the
chunk-membership hypothesis at a concrete corpus. -/
theorem buildChunks_bounded_and_lossless_witness :
    (sumLen [serializeCompact (Record.email 1 "a.eml" "x" "" "" "" "hello")] ≤
      chunkSizeOf ([Record.email 1 "a.eml" "x" "" "" "" "hello"].map serializeCompact) ∨
      ∃ s, [serializeCompact (Record.email 1 "a.eml" "x" "" "" "" "hello")] = [s] ∧
        chunkSizeOf ([Record.email 1 "a.eml" "x" "" "" "" "hello"].map serializeCompact) < s.length) ∧
    (buildChunks [Record.email 1 "a.eml" "x" "" "" "" "hello"]).flatten =
      [Record.email 1 "a.eml" "x" "" "" "" "hello"].map serializeCompact := by
  refine ⟨(buildChunks_bounded_and_lossless _).1 _ ?_, (buildChunks_bounded_and_lossless _).2⟩
  show _ ∈ buildChunksGo _ _ _ _
  simp [buildChunksGo, buildChunksLines, chunkSizeOf]

/-! ## The sanitizer (`sanitize`, server.js lines 63–69 / 485–491)

Four regex passes in order: delete NUL characters, replace every character
outside the printable band (tab, LF, CR, space–tilde, U+00A0–U+024F) with a
space, collapse every run of two or more spaces/tabs into one space, and
trim. -/

/-- Membership in the character class `[\x09\x0A\x0D\x20-\x7E -ɏ]`. -/
def allowedChar (c : Char) : Bool :=
  c.toNat = 0x09 ∨ c.toNat = 0x0A ∨ c.toNat = 0x0D ∨
  (0x20 ≤ c.toNat ∧ c.toNat ≤ 0x7E) ∨ (0xA0 ≤ c.toNat ∧ c.toNat ≤ 0x24F)

/-- Membership in the regex class `[ \t]`. -/
def isSpTab (c : Char) : Bool := c = ' ' ∨ c = '\t'

/-- The pass `.replace(/\u0000/g, "")`. -/
def removeNulL (l : List Char) : List Char := l.filter (fun c => c ≠ '\x00')

/-- The pass `.replace(/[^\x09\x0A\x0D\x20-\x7E -ɏ]/g, " ")`. -/
def maskL (l : List Char) : List Char := l.map (fun c => if allowedChar c then c else ' ')

/-- Dropping a prefix can only shorten a list. -/
theorem length_dropWhileLe {α : Type} (p : α → Bool) (l : List α) :
    (l.dropWhile p).length ≤ l.length :=
  (List.dropWhile_suffix p).sublist.length_le

/-- The pass `.replace(/[ \t]{2,}/g, " ")`: a maximal run of two or more
spaces/tabs becomes one space; an isolated space/tab is kept.  The fuel
argument only bounds the recursion depth; `collapseL` passes the input
length, which always suffices (each recursive call is on a strictly
shorter list), keeping the function structurally recursive and hence
kernel-computable. -/
def collapseF : Nat → List Char → List Char
  | 0, l => l
  | _ + 1, [] => []
  | _ + 1, [c] => [c]
  | fuel + 1, c :: d :: rest2 =>
    if isSpTab c then
      if isSpTab d then ' ' :: collapseF fuel (rest2.dropWhile isSpTab)
      else c :: collapseF fuel (d :: rest2)
    else c :: collapseF fuel (d :: rest2)

def collapseL (l : List Char) : List Char := collapseF l.length l

/-- The sanitizer on character lists. -/
def sanitizeL (l : List Char) : List Char :=
  trimL (collapseL (maskL (removeNulL l)))

/-- Function `sanitize` (server.js lines 63–69). -/
def sanitize (s : String) : String := (sanitizeL s.data).asString

/-- The head surviving `dropWhile p` does not satisfy `p`. -/
theorem dropWhile_head_not {α : Type} (p : α → Bool) :
    ∀ (l : List α) (c : α) (t : List α), List.dropWhile p l = c :: t → p c = false := by
  intro l
  induction l with
  | nil => intro c t h; simp [List.dropWhile] at h
  | cons a l ih =>
    intro c t h
    by_cases hp : p a
    · rw [List.dropWhile_cons_of_pos hp] at h
      exact ih c t h
    · rw [List.dropWhile_cons_of_neg hp] at h
      cases h
      simpa using hp

/-- Lemma: `collapseF` is the identity on the empty list for every fuel. -/
theorem collapseF_nil : ∀ fuel, collapseF fuel [] = [] := by
  intro fuel
  cases fuel with
  | zero => rfl
  | succ f => rfl

/-- Every character of the collapse output is an input character or a space. -/
theorem mem_collapseF : ∀ fuel l (c : Char), c ∈ collapseF fuel l → c ∈ l ∨ c = ' ' := by
  intro fuel
  induction fuel with
  | zero => intro l c hc; exact Or.inl hc
  | succ f ih =>
    intro l c hc
    match l with
    | [] => simp [collapseF] at hc
    | [d] =>
      simp [collapseF] at hc
      simp [hc]
    | a :: d :: rest2 =>
      rw [collapseF] at hc
      by_cases ha : isSpTab a
      · rw [if_pos ha] at hc
        by_cases hd : isSpTab d
        · rw [if_pos hd] at hc
          rcases List.mem_cons.mp hc with h | h
          · exact Or.inr h
          · rcases ih _ c h with h2 | h2
            · exact Or.inl (List.mem_cons_of_mem _ (List.mem_cons_of_mem _
                ((List.dropWhile_suffix isSpTab).subset h2)))
            · exact Or.inr h2
        · rw [if_neg hd] at hc
          rcases List.mem_cons.mp hc with h | h
          · exact Or.inl (by simp [h])
          · rcases ih _ c h with h2 | h2
            · exact Or.inl (List.mem_cons_of_mem _ h2)
            · exact Or.inr h2
      · rw [if_neg ha] at hc
        rcases List.mem_cons.mp hc with h | h
        · exact Or.inl (by simp [h])
        · rcases ih _ c h with h2 | h2
          · exact Or.inl (List.mem_cons_of_mem _ h2)
          · exact Or.inr h2

/-- Lemma: `collapseF` keeps a head and preserves whether it is a space/tab. -/
theorem collapseF_cons_head :
    ∀ fuel (c : Char) l, ∃ d t, collapseF (fuel + 1) (c :: l) = d :: t ∧
      isSpTab d = isSpTab c := by
  intro fuel c l
  cases l with
  | nil => exact ⟨c, [], by simp [collapseF], rfl⟩
  | cons d rest2 =>
    by_cases hc : isSpTab c
    · by_cases hd : isSpTab d
      · refine ⟨' ', _, by rw [collapseF, if_pos hc, if_pos hd], ?_⟩
        rw [hc]; decide
      · exact ⟨c, _, by rw [collapseF, if_pos hc, if_neg hd], rfl⟩
    · exact ⟨c, _, by rw [collapseF, if_neg hc], rfl⟩

/-- No two adjacent space/tab characters in the output of the collapse. -/
def noRun (a b : Char) : Prop := ¬(isSpTab a = true ∧ isSpTab b = true)

theorem collapseF_chain :
    ∀ fuel l, l.length ≤ fuel → List.Chain' noRun (collapseF fuel l) := by
  intro fuel
  induction fuel with
  | zero =>
    intro l hl
    have : l = [] := List.length_eq_zero.mp (Nat.le_zero.mp hl)
    subst this
    simp [collapseF]
  | succ f ih =>
    intro l hl
    match l with
    | [] => simp [collapseF]
    | [c] => simp [collapseF]
    | c :: d :: rest2 =>
      have hlen : (d :: rest2).length ≤ f := by simpa using hl
      rw [collapseF]
      by_cases hc : isSpTab c
      · by_cases hd : isSpTab d
        · rw [if_pos hc, if_pos hd]
          have hws : (rest2.dropWhile isSpTab).length ≤ f := by
            have := length_dropWhileLe isSpTab rest2
            simp at hlen
            omega
          refine List.chain'_cons'.mpr ⟨?_, ih _ hws⟩
          intro y hy
          cases hrest : rest2.dropWhile isSpTab with
          | nil =>
            rw [hrest, collapseF_nil] at hy
            simp at hy
          | cons e t =>
            obtain ⟨f2, rfl⟩ : ∃ f2, f = f2 + 1 := by
              rw [hrest] at hws
              cases f
              · simp at hws
              · exact ⟨_, rfl⟩
            obtain ⟨d2, t2, heq, hsp⟩ := collapseF_cons_head f2 e t
            rw [hrest, heq] at hy
            simp at hy
            subst hy
            have he : isSpTab e = false := dropWhile_head_not isSpTab rest2 e t hrest
            rw [noRun, hsp, he]
            simp
        · rw [if_pos hc, if_neg hd]
          obtain ⟨f2, rfl⟩ : ∃ f2, f = f2 + 1 := by
            cases f
            · simp at hlen
            · exact ⟨_, rfl⟩
          obtain ⟨d2, t2, heq, hsp⟩ := collapseF_cons_head f2 d rest2
          refine List.chain'_cons'.mpr ⟨?_, ih _ hlen⟩
          intro y hy
          rw [heq] at hy
          simp at hy
          subst hy
          rw [noRun, hsp]
          simp [Bool.eq_false_iff.mpr hd]
      · rw [if_neg hc]
        refine List.chain'_cons'.mpr ⟨?_, ih _ hlen⟩
        intro y hy
        rw [noRun]
        simp [hc]

/-- A list with no adjacent space/tab run is a fixed point of the collapse. -/
theorem collapseF_of_chain :
    ∀ fuel l, List.Chain' noRun l → collapseF fuel l = l := by
  intro fuel
  induction fuel with
  | zero => intro l _; rfl
  | succ f ih =>
    intro l h
    match l with
    | [] => simp [collapseF]
    | [c] => simp [collapseF]
    | c :: d :: rest2 =>
      by_cases hc : isSpTab c
      · have hd : ¬ isSpTab d = true := by
          intro hd
          exact (List.chain'_cons'.mp h).1 d (by simp) ⟨hc, hd⟩
        rw [collapseF, if_pos hc, if_neg hd, ih _ (List.chain'_cons'.mp h).2]
      · rw [collapseF, if_neg hc, ih _ (List.chain'_cons'.mp h).2]

/-- Characters surviving the full sanitizer lie in the printable band. -/
theorem mem_sanitizeL_allowed (l : List Char) :
    ∀ c ∈ sanitizeL l, allowedChar c = true := by
  intro c hc
  have h1 : c ∈ collapseL (maskL (removeNulL l)) := by
    have h2 : sanitizeL l <:+: collapseL (maskL (removeNulL l)) := by
      refine List.IsInfix.trans ?_ ((List.dropWhile_suffix isJsWs).isInfix)
      exact ( List.rdropWhile_prefix _ _).isInfix
    exact h2.subset hc
  rcases mem_collapseF _ _ c h1 with h | h
  · rcases List.mem_map.mp h with ⟨a, _, ha⟩
    by_cases hall : allowedChar a
    · rw [← ha]; simp [hall]
    · rw [← ha]; simp [hall]; decide
  · subst h; decide

/-- C5: the sanitizer is idempotent. -/
theorem sanitize_idempotent (s : String) : sanitize (sanitize s) = sanitize s := by
  have key : ∀ l : List Char, sanitizeL (sanitizeL l) = sanitizeL l := by
    intro l
    have hall := mem_sanitizeL_allowed l
    have h1 : removeNulL (sanitizeL l) = sanitizeL l := by
      rw [removeNulL, List.filter_eq_self]
      intro a ha
      have : allowedChar a = true := hall a ha
      simp only [decide_eq_true_eq]
      intro hnul
      subst hnul
      simp [allowedChar] at this
    have h2 : maskL (sanitizeL l) = sanitizeL l := by
      rw [maskL]
      have : ∀ a ∈ sanitizeL l, (if allowedChar a then a else ' ') = id a := by
        intro a ha
        simp [hall a ha]
      rw [List.map_congr_left this, List.map_id]
    have hchain : List.Chain' noRun (sanitizeL l) := by
      have hz := collapseF_chain (maskL (removeNulL l)).length (maskL (removeNulL l)) le_rfl
      refine hz.infix ?_
      refine List.IsInfix.trans ?_ ((List.dropWhile_suffix isJsWs).isInfix)
      exact ( List.rdropWhile_prefix _ _).isInfix
    have h3 : collapseL (sanitizeL l) = sanitizeL l := collapseF_of_chain _ _ hchain
    have h4 : trimL (sanitizeL l) = sanitizeL l := by
      have hpre : sanitizeL l <+:
          List.dropWhile isJsWs (collapseL (maskL (removeNulL l))) :=
        List.rdropWhile_prefix _ _
      obtain ⟨t, ht⟩ := hpre
      have hdw : List.dropWhile isJsWs (sanitizeL l) = sanitizeL l := by
        cases hcase : sanitizeL l with
        | nil => simp
        | cons c cs =>
          have hmhead : List.dropWhile isJsWs (collapseL (maskL (removeNulL l))) =
              c :: (cs ++ t) := by rw [← ht, hcase]; simp
          have hws : isJsWs c = false :=
            dropWhile_head_not isJsWs _ c (cs ++ t) hmhead
          rw [List.dropWhile_cons_of_neg (by simp [hws])]
      rw [trimL, hdw]
      exact List.rdropWhile_idempotent _ _
    show trimL (collapseL (maskL (removeNulL (sanitizeL l)))) = sanitizeL l
    rw [h1, h2, h3, h4]
  show (sanitizeL (sanitize s).data).asString = _
  have hdata : (sanitize s).data = sanitizeL s.data := by
    simp [sanitize, List.asString]
  rw [hdata, key]
  rfl

/-! ## Header/body separation (`splitHeaderBody`, server.js lines 80–88)

The source tries the separators `"\r\n\r\n"` then `"\n\n"`, in that order;
the first separator *of the list* that occurs anywhere in the input wins,
and the split happens at its first occurrence. -/

def rnrn : List Char := ['\r', '\n', '\r', '\n']

def lflf : List Char := ['\n', '\n']

/-- The loop `for (const sep of [...]) { const idx = text.indexOf(sep);... }`. -/
def splitHeaderBodyGo (text : List Char) : List (List Char) → List Char × List Char
  | [] => (text, [])
  | sep :: seps =>
    match idxOfSub sep text with
    | some idx => (text.take idx, text.drop (idx + sep.length))
    | none => splitHeaderBodyGo text seps

def splitHeaderBodyL (text : List Char) : List Char × List Char :=
  splitHeaderBodyGo text [rnrn, lflf]

/-- Function `splitHeaderBody` on `String`s, returning `(rawHeaders, body)`. -/
def splitHeaderBody (s : String) : String × String :=
  ((splitHeaderBodyL s.data).1.asString, (splitHeaderBodyL s.data).2.asString)

/-- Predicate: `pat` occurs in `l` at index `i`. -/
@[reducible] def occursAt (pat l : List Char) (i : Nat) : Prop :=
  pat.isPrefixOf (l.drop i) = true

theorem idxOfSub_some (pat : List Char) :
    ∀ l i, idxOfSub pat l = some i →
      occursAt pat l i ∧ ∀ j < i, ¬ occursAt pat l j := by
  intro l
  induction l with
  | nil =>
    intro i h
    rw [idxOfSub] at h
    by_cases hp : pat.isPrefixOf []
    · rw [if_pos hp] at h
      cases h
      exact ⟨hp, by omega⟩
    · rw [if_neg hp] at h
      cases h
  | cons c rest ih =>
    intro i h
    rw [idxOfSub] at h
    by_cases hp : pat.isPrefixOf (c :: rest)
    · rw [if_pos hp] at h
      cases h
      exact ⟨hp, by omega⟩
    · rw [if_neg hp] at h
      rcases Option.map_eq_some'.mp h with ⟨i2, hi2, hsum⟩
      obtain ⟨hocc, hmin⟩ := ih i2 hi2
      subst hsum
      refine ⟨hocc, ?_⟩
      intro j hj
      cases j with
      | zero => simpa [occursAt] using hp
      | succ j2 => exact hmin j2 (by omega)

theorem idxOfSub_none (pat : List Char) :
    ∀ l, idxOfSub pat l = none → ∀ i, ¬ occursAt pat l i := by
  intro l
  induction l with
  | nil =>
    intro h i
    rw [idxOfSub] at h
    by_cases hp : pat.isPrefixOf []
    · rw [if_pos hp] at h; cases h
    · rw [if_neg hp] at h
      intro hocc
      exact absurd (by simpa [occursAt, List.drop_nil] using hocc) hp
  | cons c rest ih =>
    intro h i
    rw [idxOfSub] at h
    by_cases hp : pat.isPrefixOf (c :: rest)
    · rw [if_pos hp] at h; cases h
    · rw [if_neg hp] at h
      have hnone : idxOfSub pat rest = none := by
        cases hr : idxOfSub pat rest with
        | none => rfl
        | some v => rw [hr] at h; cases h
      cases i with
      | zero => simpa [occursAt] using hp
      | succ i2 => exact ih hnone i2

/-- C3 counterexample: on `"a\n\nb\r\n\r\nc"` the code splits at the
`"\r\n\r\n"` occurrence (offset 4) even though `"\n\n"` occurs earlier
(offset 1); the claimed earliest-of-either split `("a", "b\r\n\r\nc")` is
not produced. -/
theorem splitHeaderBody_not_first_offset :
    splitHeaderBody "a\n\nb\r\n\r\nc" = ("a\n\nb", "c") ∧
    occursAt lflf ("a\n\nb\r\n\r\nc").data 1 ∧
    (∀ j < 1, ¬ occursAt rnrn ("a\n\nb\r\n\r\nc").data j ∧
      ¬ occursAt lflf ("a\n\nb\r\n\r\nc").data j) ∧
    splitHeaderBody "a\n\nb\r\n\r\nc" ≠ ("a", "b\r\n\r\nc") := by
  refine ⟨by decide, by decide, ?_, by decide⟩
  intro j hj
  interval_cases j
  exact ⟨by decide, by decide⟩

/-- C3 amended: `splitHeaderBody` splits at the first occurrence of
`"\r\n\r\n"` if that separator occurs anywhere; otherwise at the first
occurrence of `"\n\n"`; if neither occurs, the whole input is the header
block and the body is empty. -/
theorem splitHeaderBody_spec (s : String) :
    ((h : ∃ i, occursAt rnrn s.data i) →
      splitHeaderBody s =
        ((s.data.take (Nat.find h)).asString, (s.data.drop (Nat.find h + 4)).asString)) ∧
    ((¬ ∃ i, occursAt rnrn s.data i) → (h3 : ∃ j, occursAt lflf s.data j) →
      splitHeaderBody s =
        ((s.data.take (Nat.find h3)).asString, (s.data.drop (Nat.find h3 + 2)).asString)) ∧
    ((¬ ∃ i, occursAt rnrn s.data i) → (¬ ∃ j, occursAt lflf s.data j) →
      splitHeaderBody s = (s, "")) := by
  cases hidx : idxOfSub rnrn s.data with
  | some i =>
    obtain ⟨hocc, hmin⟩ := idxOfSub_some rnrn s.data i hidx
    refine ⟨?_, ?_, ?_⟩
    · intro h
      have hfind : Nat.find h = i := (Nat.find_eq_iff h).mpr ⟨hocc, fun n hn => hmin n hn⟩
      rw [hfind]
      simp only [splitHeaderBody, splitHeaderBodyL, splitHeaderBodyGo, hidx]
      simp [rnrn]
    · intro h2 _
      exact absurd ⟨i, hocc⟩ h2
    · intro h2 _
      exact absurd ⟨i, hocc⟩ h2
  | none =>
    have hno : ∀ i, ¬ occursAt rnrn s.data i := idxOfSub_none rnrn s.data hidx
    cases hidx2 : idxOfSub lflf s.data with
    | some j =>
      obtain ⟨hocc2, hmin2⟩ := idxOfSub_some lflf s.data j hidx2
      refine ⟨?_, ?_, ?_⟩
      · intro h
        obtain ⟨i, hi⟩ := h
        exact absurd hi (hno i)
      · intro _ h3
        have hfind : Nat.find h3 = j := (Nat.find_eq_iff h3).mpr ⟨hocc2, fun n hn => hmin2 n hn⟩
        rw [hfind]
        simp only [splitHeaderBody, splitHeaderBodyL, splitHeaderBodyGo, hidx, hidx2]
        simp [lflf]
      · intro _ h4
        exact absurd ⟨j, hocc2⟩ h4
    | none =>
      have hno2 : ∀ j, ¬ occursAt lflf s.data j := idxOfSub_none lflf s.data hidx2
      refine ⟨?_, ?_, ?_⟩
      · intro h
        obtain ⟨i, hi⟩ := h
        exact absurd hi (hno i)
      · intro _ h3
        obtain ⟨j, hj⟩ := h3
        exact absurd hj (hno2 j)
      · intro _ _
        simp [splitHeaderBody, splitHeaderBodyL, splitHeaderBodyGo, hidx, hidx2]
        constructor
        · cases s; rfl
        · rfl

/-- Closed instance of `splitHeaderBody_spec` at a concrete input whose
header block ends with `"\r\n\r\n"`. -/
theorem splitHeaderBody_spec_witness : splitHeaderBody "x\r\n\r\ny" = ("x", "y") := by
  have h : ∃ i, occursAt rnrn ("x\r\n\r\ny" : String).data i := ⟨1, by decide⟩
  have hfind : Nat.find h = 1 := (Nat.find_eq_iff h).mpr ⟨by decide, by
    intro n hn
    interval_cases n
    decide⟩
  have := (splitHeaderBody_spec "x\r\n\r\ny").1 h
  rw [hfind] at this
  simpa using this

/-! ## Header parsing (`parseHeaders`, server.js lines 25–42)

Headers are a JavaScript object written in insertion order with last-write
replacement; we model it as an association list with in-place update. -/

/-- Lookup in the header map. -/
def hmGet (m : List (String × String)) (k : String) : Option String :=
  List.lookup k m

/-- Assignment `headers[key] = value`: replace in place or append. -/
def hmSet : List (String × String) → String → String → List (String × String)
  | [], k, v => [(k, v)]
  | (k2, v2) :: rest, k, v =>
    if k2 = k then (k, v) :: rest else (k2, v2) :: hmSet rest k v

/-- Line splitting `raw.split(/\r?\n/)`. -/
def splitLinesGo : List Char → List Char → List (List Char)
  | [], acc => [acc.reverse]
  | '\r' :: '\n' :: rest, acc => acc.reverse :: splitLinesGo rest []
  | '\n' :: rest, acc => acc.reverse :: splitLinesGo rest []
  | c :: rest, acc => splitLinesGo rest (c :: acc)

def splitLinesL (l : List Char) : List (List Char) := splitLinesGo l []

/-- The regex test `/^\s/.test(line)`. -/
def startsWithWsp : List Char → Bool
  | [] => false
  | c :: _ => isJsWs c

/-- One step of the `parseHeaders` loop over physical lines, carrying the
current key (for continuation folding) and the accumulated map. -/
def parseHeadersGo : List (List Char) → Option String → List (String × String) →
    List (String × String)
  | [], _, m => m
  | line :: rest, key, m =>
    if trimL line = [] then parseHeadersGo rest key m
    else if startsWithWsp line ∧ key.isSome then
      match key with
      | some k =>
        let folded := trimL (((hmGet m k).getD "").data ++ ' ' :: trimL line)
        parseHeadersGo rest key (hmSet m k folded.asString)
      | none => parseHeadersGo rest key m
    else
      match idxOfSub [':'] line with
      | none => parseHeadersGo rest key m
      | some i =>
        let k := (lowerL (trimL (line.take i))).asString
        let v := (trimL (line.drop (i + 1))).asString
        parseHeadersGo rest (some k) (hmSet m k v)

/-- Function `parseHeaders` on a raw header block. -/
def parseHeadersL (raw : List Char) : List (String × String) :=
  parseHeadersGo (splitLinesL raw) none []

/-! ## Transfer decoding (`decodeQP`/`decodeBody`, server.js lines 44–48, 90–99)

`decodeQP` is two regex passes: remove soft line breaks `=\r?\n`, then
substitute `=XX` hex escapes.  The `Buffer` transcoding steps of
`decodeBody` (base64 → utf8 and latin1 → utf8) are Node-runtime externals,
modelled by the `JsExt` oracle; `none` models a thrown exception, caught by
the source's `try`/`catch` which falls back to the undecoded body. -/

def stripSoftBreaks : List Char → List Char
  | [] => []
  | '=' :: '\r' :: '\n' :: rest => stripSoftBreaks rest
  | '=' :: '\n' :: rest => stripSoftBreaks rest
  | c :: rest => c :: stripSoftBreaks rest

def isHexDigit (c : Char) : Bool :=
  ('0' ≤ c ∧ c ≤ '9') ∨ ('a' ≤ c ∧ c ≤ 'f') ∨ ('A' ≤ c ∧ c ≤ 'F')

def hexVal (c : Char) : Nat :=
  if c ≤ '9' then c.toNat - 48 else if c ≤ 'F' then c.toNat - 55 else c.toNat - 87

/-- The pass `.replace(/=([A-Fa-f0-9]{2})/g, (m, h) => String.fromCharCode(parseInt(h, 16)))`. -/
def qpUnescape : List Char → List Char
  | [] => []
  | '=' :: c1 :: c2 :: rest =>
    if isHexDigit c1 ∧ isHexDigit c2 then
      Char.ofNat (16 * hexVal c1 + hexVal c2) :: qpUnescape rest
    else '=' :: qpUnescape (c1 :: c2 :: rest)
  | c :: rest => c :: qpUnescape rest

def decodeQP (l : List Char) : List Char := qpUnescape (stripSoftBreaks l)

/-- The Node `Buffer` transcoding primitives used by the source, as an
abstract oracle: `b64utf8 s` is `Buffer.from(s, "base64").toString("utf8")`,
`b64latin1` the latin1 variant, and `latin1utf8 s` is
`Buffer.from(s, "latin1").toString("utf8")`.  A `none` result models the
external call throwing. -/
structure JsExt where
  b64utf8 : String → Option String
  b64latin1 : String → Option String
  latin1utf8 : String → Option String

/-- The pass `.replace(/\s+/g, "")`. -/
def stripAllWs (l : List Char) : List Char := l.filter (fun c => ¬ isJsWs c)

/-- Function `decodeBody(body, headers)`. -/
def decodeBody (ext : JsExt) (body : List Char) (headers : List (String × String)) :
    List Char :=
  let enc := lowerL ((hmGet headers "content-transfer-encoding").getD "").data
  if containsSub "base64".data enc then
    match ext.b64utf8 (stripAllWs body).asString with
    | some s => s.data
    | none => body
  else if containsSub "quoted-printable".data enc then
    match ext.latin1utf8 (decodeQP body).asString with
    | some s => s.data
    | none => body
  else body

/-! ## A generic leftmost global replacer

`scanRep f` mirrors `String.prototype.replace` with a global regex: scan
left to right, at each position attempt the match `f`; on success emit the
replacement and continue after the match, otherwise keep the character and
advance by one.  The fuel argument only bounds the recursion depth;
`scanRep` passes the input length, which suffices for every matcher used
here because each match consumes at least one character
(`scanRepF_fuel_sufficient`). -/

def scanRepF (f : List Char → Option (List Char × List Char)) :
    Nat → List Char → List Char
  | 0, l => l
  | _ + 1, [] => []
  | fuel + 1, c :: cs =>
    match f (c :: cs) with
    | some (out, rest) => out ++ scanRepF f fuel rest
    | none => c :: scanRepF f fuel cs

def scanRep (f : List Char → Option (List Char × List Char)) (l : List Char) :
    List Char := scanRepF f l.length l

theorem scanRepF_nil (f : List Char → Option (List Char × List Char)) :
    ∀ fuel, scanRepF f fuel [] = [] := by
  intro fuel
  cases fuel with
  | zero => rfl
  | succ _ => rfl

/-- For a matcher that always consumes at least one character, any fuel at
least the input length computes the same result; in particular the
`scanRep` wrapper's choice of fuel is sufficient. -/
theorem scanRepF_fuel_sufficient (f : List Char → Option (List Char × List Char))
    (hf : ∀ l out rest, f l = some (out, rest) → rest.length < l.length) :
    ∀ n l, l.length ≤ n → ∀ f1 f2, l.length ≤ f1 → l.length ≤ f2 →
      scanRepF f f1 l = scanRepF f f2 l := by
  intro n
  induction n with
  | zero =>
    intro l hl f1 f2 h1 h2
    have : l = [] := List.length_eq_zero.mp (Nat.le_zero.mp hl)
    subst this
    rw [scanRepF_nil, scanRepF_nil]
  | succ n ih =>
    intro l hl f1 f2 h1 f2h
    match l with
    | [] => rw [scanRepF_nil, scanRepF_nil]
    | c :: cs =>
      obtain ⟨g1, rfl⟩ : ∃ g1, f1 = g1 + 1 := by
        cases f1
        · simp at h1
        · exact ⟨_, rfl⟩
      obtain ⟨g2, rfl⟩ : ∃ g2, f2 = g2 + 1 := by
        cases f2
        · simp at f2h
        · exact ⟨_, rfl⟩
      rw [scanRepF, scanRepF]
      cases hm : f (c :: cs) with
      | some pr =>
        obtain ⟨o, r⟩ := pr
        have hlt := hf _ o r hm
        simp only [List.length_cons] at hlt hl h1 f2h
        show o ++ scanRepF f g1 r = o ++ scanRepF f g2 r
        congr 1
        exact ih r (by omega) g1 g2 (by omega) (by omega)
      | none =>
        simp only [List.length_cons] at hl h1 f2h
        show c :: scanRepF f g1 cs = c :: scanRepF f g2 cs
        congr 1
        exact ih cs (by omega) g1 g2 (by omega) (by omega)

/-! ## Encoded-word decoding (`decodeEncodedWords`, server.js lines 50–61)

The regex `=\?([^?]+)\?([bBqQ])\?([^?]+)\?=` is matched token by token; `B`
tokens go through the base64 oracle (charset utf-8 or latin1) and `Q`
tokens through underscore-to-space then `decodeQP`.  The `catch` branch of
the source returns the raw `data` capture — not the whole token. -/

/-- Attempt the encoded-word regex at the head of `l`; on success return
`((charset, encodingChar, data), rest)`. -/
def matchEncodedWord (l : List Char) : Option ((String × Char × String) × List Char) :=
  match l with
  | c1 :: c2 :: rest =>
    if c1 = '=' ∧ c2 = '?' then
      if (rest.takeWhile (fun c => c ≠ '?')) = [] then none
      else
        match rest.dropWhile (fun c => c ≠ '?') with
        | q1 :: e :: q2 :: r2 =>
          if q1 = '?' ∧ q2 = '?' ∧ (e = 'b' ∨ e = 'B' ∨ e = 'q' ∨ e = 'Q') then
            if (r2.takeWhile (fun c => c ≠ '?')) = [] then none
            else
              match r2.dropWhile (fun c => c ≠ '?') with
              | q3 :: q4 :: r4 =>
                if q3 = '?' ∧ q4 = '=' then
                  some (((rest.takeWhile (fun c => c ≠ '?')).asString, e,
                         (r2.takeWhile (fun c => c ≠ '?')).asString), r4)
                else none
              | _ => none
          else none
        | _ => none
    else none
  | _ => none

/-- The replacement callback of `decodeEncodedWords`, including the
`catch (_e) { return data; }` branch. -/
def decodeEncodedWordToken (ext : JsExt) (cs : String) (e : Char) (dat : String) : String :=
  if upperChar e = 'B' then
    match (if containsSub "utf-8".data (lowerL cs.data) then ext.b64utf8 dat
           else ext.b64latin1 dat) with
    | some s => s
    | none => dat
  else
    (decodeQP (dat.data.map (fun c => if c = '_' then ' ' else c))).asString

def ewMatcher (ext : JsExt) (l : List Char) : Option (List Char × List Char) :=
  (matchEncodedWord l).map
    (fun x => ((decodeEncodedWordToken ext x.1.1 x.1.2.1 x.1.2.2).data, x.2))

theorem matchEncodedWord_lt :
    ∀ l t rest, matchEncodedWord l = some (t, rest) → rest.length < l.length := by
  intro l t rest h
  rw [matchEncodedWord.eq_def] at h
  split at h
  all_goals try contradiction
  rename_i c1 c2 r
  split at h
  all_goals try contradiction
  split at h
  all_goals try contradiction
  split at h
  all_goals try contradiction
  rename_i q1 e q2 r2 heq
  split at h
  all_goals try contradiction
  split at h
  all_goals try contradiction
  split at h
  all_goals try contradiction
  rename_i q3 q4 r4 heq2
  split at h
  all_goals try contradiction
  cases h
  have h1 : (List.dropWhile (fun c => c ≠ '?') r).length ≤ r.length :=
    length_dropWhileLe _ _
  have h2 : (List.dropWhile (fun c => c ≠ '?') r2).length ≤ r2.length :=
    length_dropWhileLe _ _
  rw [heq] at h1
  rw [heq2] at h2
  simp at h1 h2 ⊢
  omega

theorem ewMatcher_lt (ext : JsExt) :
    ∀ l out rest, ewMatcher ext l = some (out, rest) → rest.length < l.length := by
  intro l out rest h
  rw [ewMatcher] at h
  cases hm : matchEncodedWord l with
  | none => rw [hm] at h; cases h
  | some x =>
    rw [hm, Option.map_some'] at h
    have h2 : x.2 = rest := congrArg Prod.snd (Option.some.inj h)
    rw [← h2]
    exact matchEncodedWord_lt l x.1 x.2 (by rw [hm])

def decodeEncodedWordsL (ext : JsExt) (l : List Char) : List Char :=
  scanRep (ewMatcher ext) l

/-- Function `decodeEncodedWords` (server.js lines 50–61). -/
def decodeEncodedWords (ext : JsExt) (s : String) : String :=
  (decodeEncodedWordsL ext s.data).asString

/-! ## HTML stripping (`stripHtml`, server.js lines 71–78)

Five global regex passes in order: `<style>…</style>` blocks to a space,
`<script>…</script>` blocks to a space, `<br\s*\/?>` to a newline, `</p>`
to a newline, any remaining `<[^>]+>` tag to a space.  All patterns are
case-insensitive except the last. -/

/-- Matcher for the non-greedy case-insensitive block pattern
`openT[\s\S]*?closeT` (used for style and script). -/
def spanCIMatcher (openT closeT : List Char) (l : List Char) :
    Option (List Char × List Char) :=
  if openT.isPrefixOf (lowerL l) then
    match idxOfSub closeT (lowerL (l.drop openT.length)) with
    | some j => some ([' '], l.drop (openT.length + j + closeT.length))
    | none => none
  else none

theorem spanCIMatcher_lt (openT closeT : List Char) (hopen : openT ≠ []) :
    ∀ l out rest, spanCIMatcher openT closeT l = some (out, rest) →
      rest.length < l.length := by
  intro l out rest h
  rw [spanCIMatcher] at h
  split at h
  rotate_left
  · cases h
  rename_i hpre
  split at h
  rotate_left
  · cases h
  rename_i j hj
  cases h
  have hlen : openT.length ≤ l.length := by
    have := ( List.isPrefixOf_iff_prefix.mp hpre).length_le
    simpa [lowerL] using this
  have hpos : 1 ≤ openT.length := by
    cases openT
    · exact absurd rfl hopen
    · simp
  simp [List.length_drop]
  omega

/-- Matcher for `<br\s*\/?>` (case-insensitive). -/
def brMatcher (l : List Char) : Option (List Char × List Char) :=
  if ("<br".data).isPrefixOf (lowerL l) then
    match (l.drop 3).dropWhile isJsWs with
    | '>' :: r => some (['\n'], r)
    | '/' :: '>' :: r => some (['\n'], r)
    | _ => none
  else none

theorem brMatcher_lt :
    ∀ l out rest, brMatcher l = some (out, rest) → rest.length < l.length := by
  intro l out rest h
  rw [brMatcher] at h
  split at h
  rotate_left
  · cases h
  rename_i hpre
  have hlen : 3 ≤ l.length := by
    have := ( List.isPrefixOf_iff_prefix.mp hpre).length_le
    simpa [lowerL] using this
  have hdw : ((l.drop 3).dropWhile isJsWs).length ≤ l.length - 3 := by
    have := length_dropWhileLe isJsWs (l.drop 3)
    simpa [List.length_drop] using this
  split at h
  · rename_i r heq
    cases h
    rw [heq] at hdw
    simp at hdw
    omega
  · rename_i r heq
    cases h
    rw [heq] at hdw
    simp at hdw
    omega
  · cases h

/-- Matcher for the case-insensitive literal `</p>`. -/
def closePMatcher (l : List Char) : Option (List Char × List Char) :=
  if ("</p>".data).isPrefixOf (lowerL l) then some (['\n'], l.drop 4) else none

theorem closePMatcher_lt :
    ∀ l out rest, closePMatcher l = some (out, rest) → rest.length < l.length := by
  intro l out rest h
  rw [closePMatcher] at h
  split at h
  rotate_left
  · cases h
  rename_i hpre
  cases h
  have hlen : 4 ≤ l.length := by
    have := ( List.isPrefixOf_iff_prefix.mp hpre).length_le
    simpa [lowerL] using this
  simp [List.length_drop]
  omega

/-- Matcher for `<[^>]+>`. -/
def tagMatcher (l : List Char) : Option (List Char × List Char) :=
  match l with
  | c :: rest =>
    if c = '<' ∧ (rest.takeWhile (fun x => x ≠ '>')) ≠ [] then
      match rest.dropWhile (fun x => x ≠ '>') with
      | _ :: r => some ([' '], r)
      | [] => none
    else none
  | [] => none

theorem tagMatcher_lt :
    ∀ l out rest, tagMatcher l = some (out, rest) → rest.length < l.length := by
  intro l out rest h
  rw [tagMatcher.eq_def] at h
  split at h
  rotate_left
  · cases h
  rename_i c r
  split at h
  rotate_left
  · cases h
  split at h
  rotate_left
  · cases h
  rename_i g r2 heq
  cases h
  have := length_dropWhileLe (fun x => x ≠ '>') r
  rw [heq] at this
  simp at this ⊢
  omega

/-- Function `stripHtml` (server.js lines 71–78): the five passes, innermost first. -/
def stripHtmlL (l : List Char) : List Char :=
  scanRep tagMatcher
    (scanRep closePMatcher
      (scanRep brMatcher
        (scanRep (spanCIMatcher "<script".data "</script>".data)
          (scanRep (spanCIMatcher "<style".data "</style>".data) l))))

def stripHtml (s : String) : String := (stripHtmlL s.data).asString

/-! ## Boundary extraction (`getBoundary`, server.js lines 101–104)

The regex `/boundary="?([^";]+)"?/i` is searched left to right; the capture
is the maximal nonempty run of characters other than `"` and `;` after
`boundary=` and an optional opening quote. -/

/-- The part of the boundary regex after the literal `boundary=`:
`"?([^";]+)"?`, applied to the original (non-lowercased) characters. -/
def boundaryCapture (l : List Char) : Option (List Char) :=
  match l with
  | '"' :: rest =>
    if (rest.takeWhile (fun c => c ≠ '"' ∧ c ≠ ';')) = [] then none
    else some (rest.takeWhile (fun c => c ≠ '"' ∧ c ≠ ';'))
  | _ =>
    if (l.takeWhile (fun c => c ≠ '"' ∧ c ≠ ';')) = [] then none
    else some (l.takeWhile (fun c => c ≠ '"' ∧ c ≠ ';'))

/-- Left-to-right scan for the first successful `boundary=…` match. -/
def getBoundaryGo : List Char → Option (List Char)
  | [] => none
  | c :: rest =>
    if ("boundary=".data).isPrefixOf (lowerL (c :: rest)) then
      match boundaryCapture ((c :: rest).drop 9) with
      | some cap => some cap
      | none => getBoundaryGo rest
    else getBoundaryGo rest

/-- Function `getBoundary` returns the capture, or `""` when the regex fails. -/
def getBoundary (ct : List Char) : List Char := (getBoundaryGo ct).getD []

/-! ## Splitting on the boundary marker (`body.split(marker)`) -/

/-- An occurrence index is small enough for the pattern to fit. -/
theorem occursAt_add_le (pat l : List Char) (i : Nat) (hp : pat ≠ [])
    (h : occursAt pat l i) : i + pat.length ≤ l.length := by
  have hpre : pat <+: l.drop i := List.isPrefixOf_iff_prefix.mp h
  have h1 : pat.length ≤ (l.drop i).length := hpre.length_le
  rw [List.length_drop] at h1
  have h2 : 1 ≤ pat.length := by
    cases pat
    · exact absurd rfl hp
    · simp
  omega

/-- JavaScript `String.prototype.split` with a separator string: repeatedly cut at the
first occurrence of the separator.  The source only ever splits on the
boundary marker `"--" + boundary`, which is nonempty; each cut then consumes
at least one character, so the input length bounds the recursion depth and
the fuel passed by the `splitOnList` wrapper is sufficient
(`splitOnGo_fuel_sufficient`). -/
def splitOnGo (sep : List Char) : Nat → List Char → List (List Char)
  | 0, l => [l]
  | fuel + 1, l =>
    match idxOfSub sep l with
    | some i => l.take i :: splitOnGo sep fuel (l.drop (i + sep.length))
    | none => [l]

def splitOnList (sep l : List Char) : List (List Char) := splitOnGo sep l.length l

theorem splitOnGo_fuel_sufficient (sep : List Char) (hsep : sep ≠ []) :
    ∀ n l, l.length ≤ n → ∀ f1 f2, l.length ≤ f1 → l.length ≤ f2 →
      splitOnGo sep f1 l = splitOnGo sep f2 l := by
  intro n
  induction n with
  | zero =>
    intro l hl f1 f2 h1 h2
    have hnil : l = [] := List.length_eq_zero.mp (Nat.le_zero.mp hl)
    subst hnil
    have hnone : idxOfSub sep [] = none := by
      rw [idxOfSub]
      rw [if_neg]
      intro hpre
      exact hsep (List.prefix_nil.mp ( List.isPrefixOf_iff_prefix.mp hpre))
    cases f1 with
    | zero =>
      cases f2 with
      | zero => rfl
      | succ g2 => rw [splitOnGo, splitOnGo, hnone]
    | succ g1 =>
      cases f2 with
      | zero => rw [splitOnGo, splitOnGo, hnone]
      | succ g2 => rw [splitOnGo, splitOnGo, hnone]
  | succ n ih =>
    intro l hl f1 f2 h1 h2
    cases hidx : idxOfSub sep l with
    | none =>
      cases f1 with
      | zero => cases f2 with
        | zero => rfl
        | succ g2 => rw [splitOnGo, splitOnGo, hidx]
      | succ g1 => cases f2 with
        | zero => rw [splitOnGo, splitOnGo, hidx]
        | succ g2 => rw [splitOnGo, splitOnGo, hidx]
    | some i =>
      have hocc := (idxOfSub_some sep l i hidx).1
      have hle := occursAt_add_le sep l i hsep hocc
      have hsl : 1 ≤ sep.length := by
        cases sep
        · exact absurd rfl hsep
        · simp
      have hlpos : 1 ≤ l.length := by omega
      obtain ⟨g1, rfl⟩ : ∃ g1, f1 = g1 + 1 := by
        cases f1
        · omega
        · exact ⟨_, rfl⟩
      obtain ⟨g2, rfl⟩ : ∃ g2, f2 = g2 + 1 := by
        cases f2
        · omega
        · exact ⟨_, rfl⟩
      rw [splitOnGo, splitOnGo, hidx]
      have hdrop : (l.drop (i + sep.length)).length ≤ l.length - 1 := by
        simp [List.length_drop]
        omega
      show _ :: splitOnGo sep g1 _ = _ :: splitOnGo sep g2 _
      congr 1
      exact ih _ (by omega) g1 g2 (by omega) (by omega)

/-- Every fragment of a split is no longer than the input. -/
theorem splitOnList_mem_length (sep : List Char) :
    ∀ l p, p ∈ splitOnList sep l → p.length ≤ l.length := by
  have key : ∀ fuel l p, p ∈ splitOnGo sep fuel l → p.length ≤ l.length := by
    intro fuel
    induction fuel with
    | zero =>
      intro l p hp
      rw [splitOnGo] at hp
      simp at hp
      simp [hp]
    | succ f ih =>
      intro l p hp
      rw [splitOnGo] at hp
      cases hidx : idxOfSub sep l with
      | none =>
        rw [hidx] at hp
        simp at hp
        simp [hp]
      | some i =>
        rw [hidx] at hp
        rcases List.mem_cons.mp hp with h | h
        · subst h
          simp
        · have := ih _ p h
          have h2 : (l.drop (i + sep.length)).length ≤ l.length := by
            simp [List.length_drop]
          omega
  intro l p hp
  exact key l.length l p hp

/-- The pass `raw.replace(<dash><dash>$, "")`: remove a final `"--"` if present. -/
def stripTrailingDashes (l : List Char) : List Char :=
  if (['-', '-'] : List Char).isSuffixOf l then l.take (l.length - 2) else l

theorem stripTrailingDashes_length_le (l : List Char) :
    (stripTrailingDashes l).length ≤ l.length := by
  rw [stripTrailingDashes]
  split
  · simp
  · simp

theorem trimL_length_le (l : List Char) : (trimL l).length ≤ l.length := by
  have h1 : (trimL l).length ≤ (l.dropWhile isJsWs).length :=
    ( List.rdropWhile_prefix _ _).length_le
  have h2 := length_dropWhileLe isJsWs l
  omega

/-- The body component of the header/body split of a nonempty input is
strictly shorter than the input. -/
theorem splitHeaderBodyL_snd_lt (t : List Char) (ht : t ≠ []) :
    (splitHeaderBodyL t).2.length < t.length := by
  have htpos : 0 < t.length := List.length_pos.mpr ht
  rw [splitHeaderBodyL, splitHeaderBodyGo]
  cases hidx : idxOfSub rnrn t with
  | some i =>
    have hocc := (idxOfSub_some rnrn t i hidx).1
    have hle := occursAt_add_le rnrn t i (by decide) hocc
    simp only []
    simp [List.length_drop, rnrn] at hle ⊢
    omega
  | none =>
    rw [splitHeaderBodyGo]
    cases hidx2 : idxOfSub lflf t with
    | some j =>
      have hocc := (idxOfSub_some lflf t j hidx2).1
      have hle := occursAt_add_le lflf t j (by decide) hocc
      simp [List.length_drop, lflf] at hle ⊢
      omega
    | none =>
      rw [splitHeaderBodyGo]
      simpa using htpos

/-- The join `texts.join("\n\n")`. -/
def joinSepL (sep : List Char) : List (List Char) → List Char
  | [] => []
  | [x] => x
  | x :: y :: rest => x ++ sep ++ joinSepL sep (y :: rest)

/-! ## The recursive MIME decoder (`extractText`, server.js lines 106–141)

A leaf (non-multipart, or multipart without a boundary) is transfer-decoded
and, when `text/html`, stripped of markup.  A multipart body is split on
`"--" + boundary`; empty fragments and the terminator are discarded; each
remaining part is split into its own headers and body and either recursed
into (nested multipart), decoded (text part), or skipped; the kept texts
are joined by a blank line, and if none survive the whole body is decoded
as a flat fallback.

The fuel argument only bounds the recursion depth: every nested self-call
is on a part body strictly shorter than the enclosing body
(`extractText_part_body_lt`), so the input length passed by the
`extractText` wrapper always suffices (`extractTextGo_fuel_sufficient`),
and the depth-exhausted case is reached only with an empty body, where it
coincides with the source's result for an empty body in both branches. -/

/-- The treatment of one multipart fragment inside the `for` loop of
`extractText`: clean the fragment, split it into part headers and part
body, and either recurse (`recur`, the nested-multipart case), decode a
text part, or skip it. -/
def extractPart (ext : JsExt)
    (recur : List Char → List (String × String) → List Char)
    (raw : List Char) : Option (List Char) :=
  if trimL (stripTrailingDashes raw) = [] then none
  else
    let pH := parseHeadersL (splitHeaderBodyL (trimL (stripTrailingDashes raw))).1
    let pType := lowerL ((hmGet pH "content-type").getD "text/plain").data
    if containsSub "multipart/".data pType then
      let nested := recur (splitHeaderBodyL (trimL (stripTrailingDashes raw))).2 pH
      if trimL nested ≠ [] then some nested else none
    else if ¬ (containsSub "text/plain".data pType = true ∨
        containsSub "text/html".data pType = true) then none
    else
      let decoded := decodeBody ext (splitHeaderBodyL (trimL (stripTrailingDashes raw))).2 pH
      let clean := if containsSub "text/html".data pType then stripHtmlL decoded
        else decoded
      if trimL clean ≠ [] then some clean else none

/-- One unfolding of `extractText`, with the nested recursive call
abstracted as `recur`. -/
def extractTextStep (ext : JsExt)
    (recur : List Char → List (String × String) → List Char)
    (body : List Char) (headers : List (String × String)) : List Char :=
  let ct := lowerL ((hmGet headers "content-type").getD "").data
  if containsSub "multipart/".data ct = false ∨ getBoundary ct = [] then
    if containsSub "text/html".data ct then stripHtmlL (decodeBody ext body headers)
    else decodeBody ext body headers
  else
    let parts := (splitOnList ('-' :: '-' :: getBoundary ct) body).filter
      (fun p => trimL p ≠ [] ∧ trimL p ≠ ['-', '-'])
    let texts := (parts.map (extractPart ext recur)).reduceOption
    if texts ≠ [] then joinSepL ['\n', '\n'] texts else decodeBody ext body headers

def extractTextGo (ext : JsExt) : Nat → List Char → List (String × String) → List Char
  | 0, body, headers =>
    if containsSub "multipart/".data
        (lowerL ((hmGet headers "content-type").getD "").data) = false ∨
        getBoundary (lowerL ((hmGet headers "content-type").getD "").data) = [] then
      if containsSub "text/html".data
          (lowerL ((hmGet headers "content-type").getD "").data) then
        stripHtmlL (decodeBody ext body headers)
      else decodeBody ext body headers
    else decodeBody ext body headers
  | fuel + 1, body, headers => extractTextStep ext (extractTextGo ext fuel) body headers

/-- Function `extractText`: run the decoder with recursion depth bounded by the body
length. -/
def extractText (ext : JsExt) (body : List Char) (headers : List (String × String)) :
    List Char := extractTextGo ext body.length body headers

/-- The body of any surviving multipart fragment is strictly shorter than
the enclosing body: the justification that the recursion of `extractText`
is well-founded on input length. -/
theorem extractText_part_body_lt (body marker raw : List Char)
    (hraw : raw ∈ splitOnList marker body)
    (hpart : trimL (stripTrailingDashes raw) ≠ []) :
    (splitHeaderBodyL (trimL (stripTrailingDashes raw))).2.length < body.length := by
  have h1 : raw.length ≤ body.length := splitOnList_mem_length _ body raw hraw
  have h2 : (trimL (stripTrailingDashes raw)).length ≤ raw.length :=
    le_trans (trimL_length_le _) (stripTrailingDashes_length_le _)
  have h3 := splitHeaderBodyL_snd_lt _ hpart
  omega

theorem trimL_nil : trimL [] = [] := rfl

/-- Any fragment of a nonempty-trim split comes from a nonempty body. -/
theorem splitOnList_body_ne_nil (marker raw body : List Char)
    (hraw : raw ∈ splitOnList marker body) (htrim : trimL raw ≠ []) :
    body ≠ [] := by
  intro hbody
  subst hbody
  have : raw = [] := by
    have h := hraw
    rw [splitOnList] at h
    simp only [List.length_nil] at h
    rw [splitOnGo] at h
    simpa using h
  subst this
  exact htrim trimL_nil

/-- Part bodies of surviving or discarded fragments alike are strictly
shorter than a nonempty enclosing body. -/
theorem part_body_lt_of_ne_nil (body marker raw : List Char)
    (hraw : raw ∈ splitOnList marker body) (hbody : body ≠ []) :
    (splitHeaderBodyL (trimL (stripTrailingDashes raw))).2.length < body.length := by
  by_cases hpart : trimL (stripTrailingDashes raw) = []
  · rw [hpart]
    have : (splitHeaderBodyL []).2 = [] := by decide
    rw [this]
    simpa using List.length_pos.mpr hbody
  · exact extractText_part_body_lt body marker raw hraw hpart

/-- Lemma: `extractPart` only depends on `recur` through its value at the part's
own body and headers. -/
theorem extractPart_congr (ext : JsExt)
    (r1 r2 : List Char → List (String × String) → List Char) (raw : List Char)
    (h : r1 (splitHeaderBodyL (trimL (stripTrailingDashes raw))).2
        (parseHeadersL (splitHeaderBodyL (trimL (stripTrailingDashes raw))).1) =
      r2 (splitHeaderBodyL (trimL (stripTrailingDashes raw))).2
        (parseHeadersL (splitHeaderBodyL (trimL (stripTrailingDashes raw))).1)) :
    extractPart ext r1 raw = extractPart ext r2 raw := by
  simp only [extractPart]
  rw [h]

/-- Lemma: `extractTextStep` only consults `recur` on strictly shorter bodies. -/
theorem extractTextStep_congr (ext : JsExt)
    (r1 r2 : List Char → List (String × String) → List Char)
    (body : List Char) (headers : List (String × String))
    (h : ∀ pb pH, pb.length < body.length → r1 pb pH = r2 pb pH) :
    extractTextStep ext r1 body headers = extractTextStep ext r2 body headers := by
  simp only [extractTextStep]
  by_cases hleaf : containsSub "multipart/".data
      (lowerL ((hmGet headers "content-type").getD "").data) = false ∨
      getBoundary (lowerL ((hmGet headers "content-type").getD "").data) = []
  · rw [if_pos hleaf, if_pos hleaf]
  · rw [if_neg hleaf, if_neg hleaf]
    have hmap : List.map (extractPart ext r1)
        ((splitOnList ('-' :: '-' ::
            getBoundary (lowerL ((hmGet headers "content-type").getD "").data)) body).filter
          (fun p => trimL p ≠ [] ∧ trimL p ≠ ['-', '-'])) =
        List.map (extractPart ext r2)
        ((splitOnList ('-' :: '-' ::
            getBoundary (lowerL ((hmGet headers "content-type").getD "").data)) body).filter
          (fun p => trimL p ≠ [] ∧ trimL p ≠ ['-', '-'])) := by
      refine List.map_congr_left ?_
      intro raw hraw
      have hmem := List.mem_filter.mp hraw
      have htrim : trimL raw ≠ [] := by
        have := hmem.2
        simp at this
        exact this.1
      have hbody : body ≠ [] := splitOnList_body_ne_nil _ raw body hmem.1 htrim
      exact extractPart_congr ext r1 r2 raw
        (h _ _ (part_body_lt_of_ne_nil body _ raw hmem.1 hbody))
    rw [hmap]

/-- With an empty body the decoder's result is fuel-independent. -/
theorem extractTextGo_nil (ext : JsExt) (headers : List (String × String)) :
    ∀ f, extractTextGo ext f [] headers = extractTextGo ext 0 [] headers := by
  intro f
  cases f with
  | zero => rfl
  | succ g =>
    show extractTextStep ext (extractTextGo ext g) [] headers = _
    rw [extractTextStep, extractTextGo]
    by_cases hleaf : containsSub "multipart/".data
        (lowerL ((hmGet headers "content-type").getD "").data) = false ∨
        getBoundary (lowerL ((hmGet headers "content-type").getD "").data) = []
    · rw [if_pos hleaf, if_pos hleaf]
    · rw [if_neg hleaf, if_neg hleaf]
      have hsplit : splitOnList ('-' :: '-' ::
          getBoundary (lowerL ((hmGet headers "content-type").getD "").data)) [] = [[]] := by
        rw [splitOnList]
        simp only [List.length_nil]
        rw [splitOnGo]
      rw [hsplit]
      simp [trimL_nil]

/-- Any fuel at least the body length computes `extractText`: the formal
statement that the length-bounded recursion depth always suffices. -/
theorem extractTextGo_fuel_sufficient (ext : JsExt) :
    ∀ n (body : List Char) headers, body.length ≤ n →
      ∀ f1 f2, body.length ≤ f1 → body.length ≤ f2 →
        extractTextGo ext f1 body headers = extractTextGo ext f2 body headers := by
  intro n
  induction n with
  | zero =>
    intro body headers hl f1 f2 h1 h2
    have : body = [] := List.length_eq_zero.mp (Nat.le_zero.mp hl)
    subst this
    rw [extractTextGo_nil ext headers f1, extractTextGo_nil ext headers f2]
  | succ n ih =>
    intro body headers hl f1 f2 h1 h2
    by_cases hbody : body = []
    · subst hbody
      rw [extractTextGo_nil ext headers f1, extractTextGo_nil ext headers f2]
    · have hpos : 1 ≤ body.length := List.length_pos.mpr hbody
      obtain ⟨g1, rfl⟩ : ∃ g1, f1 = g1 + 1 := by
        cases f1
        · omega
        · exact ⟨_, rfl⟩
      obtain ⟨g2, rfl⟩ : ∃ g2, f2 = g2 + 1 := by
        cases f2
        · omega
        · exact ⟨_, rfl⟩
      show extractTextStep ext (extractTextGo ext g1) body headers =
        extractTextStep ext (extractTextGo ext g2) body headers
      refine extractTextStep_congr ext _ _ body headers ?_
      intro pb pH hlt
      exact ih pb pH (by omega) g1 g2 (by omega) (by omega)

/-- Function `parseEml` (part_000 lines 126–140 / server.js lines 556–570): split the
message into headers and body, parse the headers, decode the body through
`extractText`, and build the email record with sanitized header fields. -/
def parseEml (ext : JsExt) (content : String) (id : Nat) (filename : String) : Record :=
  let headers := parseHeadersL (splitHeaderBodyL content.data).1
  Record.email id filename
    (sanitize (decodeEncodedWords ext ((hmGet headers "from").getD "")))
    (sanitize (decodeEncodedWords ext ((hmGet headers "to").getD "")))
    (sanitize (decodeEncodedWords ext ((hmGet headers "subject").getD "")))
    (sanitize ((hmGet headers "date").getD ""))
    ((sanitizeL (extractText ext (splitHeaderBodyL content.data).2 headers)).asString)

/-! ## End-to-end scenario B (claim C2)

A two-part `multipart/alternative` message: a `text/plain` part with body
`"Plain text"` and a `text/html` part with body `"<p>Rich</p>"`.  The
decoding oracle is never consulted (no transfer encoding and no encoded
words appear), so the result holds for every oracle. -/

/-- A concrete oracle whose decoders always fail; scenario B never invokes
it, and it also serves as the failing-decoder instance for claim C4. -/
def nullExt : JsExt := ⟨fun _ => none, fun _ => none, fun _ => none⟩

def emlScenarioB : String :=
  "Content-Type: multipart/alternative; boundary=\"b\"\n\n--b\nContent-Type: text/plain\n\nPlain text\n--b\nContent-Type: text/html\n\n<p>Rich</p>\n--b--\n"

/-- A second concrete oracle (decoding as the identity), to exhibit that the
scenario's result does not depend on the decoder. -/
def idExt : JsExt := ⟨fun s => some s, fun s => some s, fun s => some s⟩

set_option maxRecDepth 10000 in
/-- C2 counterexample: on the concrete scenario-B message the pipeline
yields `"Plain text\n\n Rich"` — `stripHtml` replaces the opening `<p>` tag
with a space, which survives sanitization — not the claimed
`"Plain text\n\nRich"`. -/
theorem parseEml_scenarioB_counterexample :
    (parseEml nullExt emlScenarioB 1 "scenario-b.eml").body = "Plain text\n\n Rich" ∧
    (parseEml nullExt emlScenarioB 1 "scenario-b.eml").body ≠ "Plain text\n\nRich" :=
  ⟨by decide, by decide⟩

set_option maxRecDepth 10000 in
/-- C2 amended: the scenario-B message decodes to body
`"Plain text\n\n Rich"` (leaf texts joined by a blank line, in part order,
with the space left by the stripped `<p>` tag).  Stated for two different
decoding oracles; the message carries no transfer encoding and no encoded
words, so the oracle is never consulted. -/
theorem parseEml_scenarioB_body :
    (parseEml nullExt emlScenarioB 1 "scenario-b.eml").body = "Plain text\n\n Rich" ∧
    (parseEml idExt emlScenarioB 1 "scenario-b.eml").body = "Plain text\n\n Rich" :=
  ⟨by decide, by decide⟩

/-- C10: the recursive MIME decoder terminates on every input: each
recursive self-call happens on a part body strictly shorter than the
current body, so the recursion is well-founded on input length; in
consequence every recursion-depth budget of at least the body length
computes the same result as `extractText`. -/
theorem extractText_recursion_wf (ext : JsExt) (body marker raw : List Char)
    (headers : List (String × String)) (fuel : Nat)
    (hraw : raw ∈ splitOnList marker body)
    (hpart : trimL (stripTrailingDashes raw) ≠ [])
    (hfuel : body.length ≤ fuel) :
    (splitHeaderBodyL (trimL (stripTrailingDashes raw))).2.length < body.length ∧
    extractTextGo ext fuel body headers = extractText ext body headers :=
  ⟨extractText_part_body_lt body marker raw hraw hpart,
    extractTextGo_fuel_sufficient ext body.length body headers le_rfl fuel body.length
      hfuel le_rfl⟩

set_option maxRecDepth 10000 in
/-- Closed instance of `extractText_recursion_wf` at the scenario-B
multipart body, its first fragment, and a depth budget of one more than the
body length. -/
theorem extractText_recursion_wf_witness :
    (splitHeaderBodyL (trimL (stripTrailingDashes
        "\nContent-Type: text/plain\n\nPlain text\n".data))).2.length <
      ("--b\nContent-Type: text/plain\n\nPlain text\n--b\nContent-Type: text/html\n\n<p>Rich</p>\n--b--\n".data).length ∧
    extractTextGo nullExt
        (("--b\nContent-Type: text/plain\n\nPlain text\n--b\nContent-Type: text/html\n\n<p>Rich</p>\n--b--\n".data).length + 1)
        "--b\nContent-Type: text/plain\n\nPlain text\n--b\nContent-Type: text/html\n\n<p>Rich</p>\n--b--\n".data
        [("content-type", "multipart/alternative; boundary=\"b\"")] =
      extractText nullExt
        "--b\nContent-Type: text/plain\n\nPlain text\n--b\nContent-Type: text/html\n\n<p>Rich</p>\n--b--\n".data
        [("content-type", "multipart/alternative; boundary=\"b\"")] :=
  extractText_recursion_wf nullExt _ ('-' :: '-' :: 'b' :: [])
    "\nContent-Type: text/plain\n\nPlain text\n".data _ _
    (by decide) (by decide) (by decide)

/-! ## Behaviour of `decodeEncodedWords` on a failing token (claim C4)

The `catch` branch of the replacement callback returns `data` — the third
capture group alone — not the full `=?charset?enc?data?=` token.  We prove
this on the token-at-the-head normal form and refute the claimed
leave-the-token-unchanged behaviour on a concrete string. -/

theorem data_asString (l : List Char) : (List.asString l).data = l := rfl

theorem takeWhile_append_cons {α : Type} (p : α → Bool) :
    ∀ (a : List α) (b : α) (t : List α), (∀ x ∈ a, p x = true) → p b = false →
      List.takeWhile p (a ++ b :: t) = a := by
  intro a
  induction a with
  | nil =>
    intro b t _ hb
    simp [List.takeWhile_cons, hb]
  | cons x xs ih =>
    intro b t ha hb
    have hx : p x = true := ha x (by simp)
    simp [List.takeWhile_cons, hx, ih b t (fun y hy => ha y (by simp [hy])) hb]

theorem dropWhile_append_cons {α : Type} (p : α → Bool) :
    ∀ (a : List α) (b : α) (t : List α), (∀ x ∈ a, p x = true) → p b = false →
      List.dropWhile p (a ++ b :: t) = b :: t := by
  intro a
  induction a with
  | nil =>
    intro b t _ hb
    simp [List.dropWhile_cons, hb]
  | cons x xs ih =>
    intro b t ha hb
    have hx : p x = true := ha x (by simp)
    simp [List.dropWhile_cons, hx, ih b t (fun y hy => ha y (by simp [hy])) hb]

/-- The encoded-word regex matches a well-formed token at the head of the
string, capturing charset, encoding character and data. -/
theorem matchEncodedWord_head (cs dat rest : List Char) (e : Char)
    (hcs1 : cs ≠ []) (hcs2 : ∀ c ∈ cs, c ≠ '?')
    (hdat1 : dat ≠ []) (hdat2 : ∀ c ∈ dat, c ≠ '?')
    (he : e = 'b' ∨ e = 'B' ∨ e = 'q' ∨ e = 'Q') :
    matchEncodedWord
        ('=' :: '?' :: (cs ++ '?' :: e :: '?' :: (dat ++ '?' :: '=' :: rest))) =
      some ((cs.asString, e, dat.asString), rest) := by
  have hq : (fun c => decide (¬ c = '?')) '?' = false := by decide
  have htake1 : (cs ++ '?' :: e :: '?' :: (dat ++ '?' :: '=' :: rest)).takeWhile
      (fun c => decide (¬ c = '?')) = cs := by
    refine takeWhile_append_cons _ cs _ _ ?_ hq
    intro x hx
    simpa using hcs2 x hx
  have hdrop1 : (cs ++ '?' :: e :: '?' :: (dat ++ '?' :: '=' :: rest)).dropWhile
      (fun c => decide (¬ c = '?')) = '?' :: e :: '?' :: (dat ++ '?' :: '=' :: rest) := by
    refine dropWhile_append_cons _ cs _ _ ?_ hq
    intro x hx
    simpa using hcs2 x hx
  have htake2 : (dat ++ '?' :: '=' :: rest).takeWhile
      (fun c => decide (¬ c = '?')) = dat := by
    refine takeWhile_append_cons _ dat _ _ ?_ hq
    intro x hx
    simpa using hdat2 x hx
  have hdrop2 : (dat ++ '?' :: '=' :: rest).dropWhile
      (fun c => decide (¬ c = '?')) = '?' :: '=' :: rest := by
    refine dropWhile_append_cons _ dat _ _ ?_ hq
    intro x hx
    simpa using hdat2 x hx
  rw [matchEncodedWord.eq_def]
  simp only [htake1, hdrop1, htake2, hdrop2]
  rcases he with h | h | h | h <;> subst h <;> simp [hcs1, hdat1]

/-- C4 amended: when the decoder fails on a `B` token, the token is
replaced by its `data` capture — the text between the third and fourth
`?` — not left as the full original token; the remainder of the string is
still scanned and decoded independently. -/
theorem decodeEncodedWords_failed_token (ext : JsExt) (cs dat rest : List Char) (e : Char)
    (hcs1 : cs ≠ []) (hcs2 : ∀ c ∈ cs, c ≠ '?')
    (hdat1 : dat ≠ []) (hdat2 : ∀ c ∈ dat, c ≠ '?')
    (he : e = 'b' ∨ e = 'B')
    (hfail : (if containsSub "utf-8".data (lowerL cs) = true
        then ext.b64utf8 dat.asString else ext.b64latin1 dat.asString) = none) :
    decodeEncodedWordsL ext
        ('=' :: '?' :: (cs ++ '?' :: e :: '?' :: (dat ++ '?' :: '=' :: rest))) =
      dat ++ decodeEncodedWordsL ext rest := by
  have hB : upperChar e = 'B' := by
    rcases he with h | h <;> subst h <;> decide
  have htok : decodeEncodedWordToken ext cs.asString e dat.asString = dat.asString := by
    rw [decodeEncodedWordToken, if_pos hB, data_asString, hfail]
  have hm : ewMatcher ext
      ('=' :: '?' :: (cs ++ '?' :: e :: '?' :: (dat ++ '?' :: '=' :: rest))) =
      some (dat, rest) := by
    rw [ewMatcher, matchEncodedWord_head cs dat rest e hcs1 hcs2 hdat1 hdat2
      (by rcases he with h | h <;> simp [h]), Option.map_some']
    show some ((decodeEncodedWordToken ext cs.asString e dat.asString).data, rest) = _
    rw [htok, data_asString]
  have hlen : ∀ M : List Char,
      ('=' :: '?' :: M).length = M.length + 1 + 1 := by
    intro M
    simp
  rw [decodeEncodedWordsL, scanRep, hlen, scanRepF, hm]
  show dat ++ scanRepF (ewMatcher ext) _ rest = _
  rw [decodeEncodedWordsL, scanRep]
  congr 1
  refine scanRepF_fuel_sufficient (ewMatcher ext) (ewMatcher_lt ext)
    ((cs ++ '?' :: e :: '?' :: (dat ++ '?' :: '=' :: rest)).length + 1) rest ?_ _ _ ?_ le_rfl
  · simp
    omega
  · simp
    omega

/-- C4 counterexample: with a decoder oracle that fails on the token's
payload, the whole-string decoder substitutes the bare payload `"xyz"`, not
the original literal token `"=?utf-8?B?xyz?="`. -/
theorem decodeEncodedWords_counterexample :
    decodeEncodedWords nullExt "=?utf-8?B?xyz?=" = "xyz" ∧
    decodeEncodedWords nullExt "=?utf-8?B?xyz?=" ≠ "=?utf-8?B?xyz?=" :=
  ⟨by decide, by decide⟩

/-- Closed instance of `decodeEncodedWords_failed_token`: the failing `B`
token collapses to its payload while the following `Q` token is still
decoded. -/
theorem decodeEncodedWords_failed_token_witness :
    decodeEncodedWordsL nullExt
        ('=' :: '?' :: ("utf-8".data ++ '?' :: 'B' :: '?' ::
          ("xyz".data ++ '?' :: '=' :: " =?utf-8?Q?a_b?=".data))) =
      "xyz".data ++ decodeEncodedWordsL nullExt " =?utf-8?Q?a_b?=".data :=
  decodeEncodedWords_failed_token nullExt "utf-8".data "xyz".data
    " =?utf-8?Q?a_b?=".data 'B' (by decide) (by decide) (by decide) (by decide)
    (Or.inr rfl) (by decide)

/-! ## Second-pass context assembly (claim C6, server.js lines 832–843)

Selected records are serialized and concatenated; when the next line would
push the running character count past `CHAR_BUDGET`, that record's body is
cut to `Math.max(500, CHAR_BUDGET - charCount - 200)` characters with the
marker `"...[truncated]"` appended, the truncated line is emitted, and the
loop breaks — no later record is included. -/

def TOKEN_BUDGET : Nat := 25000

def CHARS_PER_TOKEN : Nat := 4

def CHAR_BUDGET : Nat := TOKEN_BUDGET * CHARS_PER_TOKEN

/-- The cut length `Math.max(500, budget - charCount - 200)` over JavaScript numbers,
which can go negative before the max. -/
def truncLen (budget charCount : Nat) : Nat :=
  (max 500 ((budget : Int) - charCount - 200)).toNat

/-- The trimmed record `{ ...r, body: r.body.slice(0, ...) + "...[truncated]" }`: the spread
keeps every field (and the field order) and replaces the body. -/
def truncateRecord (budget charCount : Nat) : Record → Record
  | .email i f fr t s d b =>
    .email i f fr t s d (b.take (truncLen budget charCount) ++ "...[truncated]")
  | .attachment i f ft b =>
    .attachment i f ft (b.take (truncLen budget charCount) ++ "...[truncated]")

/-- The assembly loop, carrying the running character count. -/
def assembleContextGo (budget : Nat) : List Record → Nat → String
  | [], _ => ""
  | r :: rest, charCount =>
    if budget < charCount + (serializeRecord r).length then
      serializeRecord (truncateRecord budget charCount r) ++ "\n"
    else
      serializeRecord r ++ "\n" ++
        assembleContextGo budget rest (charCount + (serializeRecord r).length)

def assembleContext (budget : Nat) (selected : List Record) : String :=
  assembleContextGo budget selected 0

/-- The serialized lines of a record list, newline-terminated. -/
def concatLines : List Record → String
  | [] => ""
  | r :: rest => serializeRecord r ++ "\n" ++ concatLines rest

theorem assembleContextGo_spec (budget : Nat) :
    ∀ (l : List Record) (c : Nat),
      ∃ k, k ≤ l.length ∧
        (k = 0 ∨ c + sumLen ((l.take k).map serializeRecord) ≤ budget) ∧
        ((l.drop k = [] ∧ assembleContextGo budget l c = concatLines (l.take k)) ∨
          (∃ r rest2, l.drop k = r :: rest2 ∧
            budget < c + sumLen ((l.take k).map serializeRecord) +
              (serializeRecord r).length ∧
            assembleContextGo budget l c = concatLines (l.take k) ++
              serializeRecord (truncateRecord budget
                (c + sumLen ((l.take k).map serializeRecord)) r) ++ "\n")) := by
  intro l
  induction l with
  | nil =>
    intro c
    exact ⟨0, by simp, Or.inl rfl, Or.inl ⟨rfl, rfl⟩⟩
  | cons r rest ih =>
    intro c
    by_cases h : budget < c + (serializeRecord r).length
    · refine ⟨0, by simp, Or.inl rfl, Or.inr ⟨r, rest, rfl, ?_, ?_⟩⟩
      · simpa [sumLen] using h
      · rw [assembleContextGo, if_pos h]
        simp [concatLines, sumLen]
    · obtain ⟨k, hk, hcond, hcase⟩ := ih (c + (serializeRecord r).length)
      refine ⟨k + 1, by simpa using hk, ?_, ?_⟩
      · refine Or.inr ?_
        rcases hcond with h0 | h0
        · subst h0
          simp [sumLen]
          omega
        · simp [sumLen] at h0 ⊢
          omega
      · rw [assembleContextGo, if_neg h]
        rcases hcase with ⟨hdrop, heq⟩ | ⟨r2, rest2, hdrop, hover, heq⟩
        · refine Or.inl ⟨by simpa using hdrop, ?_⟩
          rw [heq]
          simp [concatLines]
        · refine Or.inr ⟨r2, rest2, by simpa using hdrop, ?_, ?_⟩
          · simp [sumLen] at hover ⊢
            omega
          · rw [Nat.add_assoc] at heq
            rw [heq, List.take_succ_cons, concatLines]
            simp [sumLen, String.append_assoc]

/-- C6: the second-pass context consists of a maximal prefix of the
selected records whose serialized lengths fit the character budget; if a
record would overflow, its body is truncated with the `"...[truncated]"`
marker and emitted as the final line, and every later selected record is
dropped entirely. -/
theorem assembleContext_spec (selected : List Record) :
    ∃ k, k ≤ selected.length ∧
      sumLen ((selected.take k).map serializeRecord) ≤ CHAR_BUDGET ∧
      ((selected.drop k = [] ∧
          assembleContext CHAR_BUDGET selected = concatLines (selected.take k)) ∨
        (∃ r rest2, selected.drop k = r :: rest2 ∧
          CHAR_BUDGET < sumLen ((selected.take k).map serializeRecord) +
            (serializeRecord r).length ∧
          assembleContext CHAR_BUDGET selected = concatLines (selected.take k) ++
            serializeRecord (truncateRecord CHAR_BUDGET
              (sumLen ((selected.take k).map serializeRecord)) r) ++ "\n" ∧
          (truncateRecord CHAR_BUDGET
              (sumLen ((selected.take k).map serializeRecord)) r).body =
            r.body.take (truncLen CHAR_BUDGET
              (sumLen ((selected.take k).map serializeRecord))) ++ "...[truncated]")) := by
  obtain ⟨k, hk, hcond, hcase⟩ := assembleContextGo_spec CHAR_BUDGET selected 0
  refine ⟨k, hk, ?_, ?_⟩
  · rcases hcond with h0 | h0
    · subst h0
      simp [sumLen, CHAR_BUDGET, TOKEN_BUDGET, CHARS_PER_TOKEN]
    · simpa using h0
  · rcases hcase with ⟨hdrop, heq⟩ | ⟨r, rest2, hdrop, hover, heq⟩
    · exact Or.inl ⟨hdrop, heq⟩
    · refine Or.inr ⟨r, rest2, hdrop, by simpa using hover, by simpa using heq, ?_⟩
      cases r with
      | email i f fr t s d b => rfl
      | attachment i f ft b => rfl

/-! ## Selector id extraction and fallback (claim C7, server.js lines 819–827)

`pickResponse.match(/\[[\d\s,]+\]/)` finds the first bracketed run of
digits, whitespace and commas; `JSON.parse` of the match either yields the
id array or throws (leaving `selectedIds = []`); an empty result falls back
to the ids of the first fifteen records. -/

/-- One regex-match attempt at the head of the string. -/
def matchIdListAt (l : List Char) : Option (List Char) :=
  match l with
  | '[' :: rest =>
    if (rest.takeWhile (fun c => c.isDigit ∨ isJsWs c ∨ c = ',')) = [] then none
    else
      match rest.dropWhile (fun c => c.isDigit ∨ isJsWs c ∨ c = ',') with
      | ']' :: _ =>
        some ('[' :: rest.takeWhile (fun c => c.isDigit ∨ isJsWs c ∨ c = ',') ++ [']'])
      | _ => none
  | _ => none

/-- Left-to-right scan for the first match of the id-list regex. -/
def firstIdListMatch : List Char → Option (List Char)
  | [] => none
  | c :: rest =>
    match matchIdListAt (c :: rest) with
    | some m => some m
    | none => firstIdListMatch rest

/-- JSON whitespace (the only whitespace `JSON.parse` accepts). -/
def jsonWsChar (c : Char) : Bool := c = ' ' ∨ c = '\t' ∨ c = '\n' ∨ c = '\r'

def skipJsonWs (l : List Char) : List Char := l.dropWhile jsonWsChar

def digitsToNat (l : List Char) : Nat := l.foldl (fun acc c => 10 * acc + (c.toNat - 48)) 0

/-- One JSON number within the regex-restricted alphabet: digits only, no
leading zero (so `JSON.parse("[01]")` throws, as in JavaScript). -/
def parseJsonNum : List Char → Option (Nat × List Char)
  | [] => none
  | c :: rest =>
    if c = '0' then
      match rest with
      | d :: _ => if d.isDigit then none else some (0, rest)
      | [] => some (0, [])
    else if c.isDigit then
      some (digitsToNat ((c :: rest).takeWhile Char.isDigit),
        (c :: rest).dropWhile Char.isDigit)
    else none

/-- The elements of a JSON integer array after the opening bracket and
leading whitespace; the whole string must be consumed. -/
def parseJsonIntsGo : Nat → List Char → Option (List Nat)
  | 0, _ => none
  | fuel + 1, l =>
    match parseJsonNum l with
    | none => none
    | some (n, rest) =>
      match skipJsonWs rest with
      | ']' :: tail => if skipJsonWs tail = [] then some [n] else none
      | ',' :: tail =>
        match parseJsonIntsGo fuel (skipJsonWs tail) with
        | some ns => some (n :: ns)
        | none => none
      | _ => none

/-- Model of `JSON.parse` on a candidate id-list string (arrays of integers only,
which is all the regex can produce). -/
def parseJsonIntList (l : List Char) : Option (List Nat) :=
  match skipJsonWs l with
  | '[' :: rest =>
    match skipJsonWs rest with
    | ']' :: tail => if skipJsonWs tail = [] then some [] else none
    | other => parseJsonIntsGo (other.length + 1) other
  | _ => none

/-- The value of `selectedIds` after the try/catch: the parsed array, or
`[]` when no match is found or `JSON.parse` throws. -/
def extractSelectedIds (resp : String) : List Nat :=
  match firstIdListMatch resp.data with
  | some m =>
    match parseJsonIntList m with
    | some ids => ids
    | none => []
  | none => []

/-- The fallback `if (selectedIds.length === 0) selectedIds = ALL_RECORDS.slice(0, 15).map(r => r.id)`. -/
def selectIdsOrFallback (resp : String) (records : List Record) : List Nat :=
  if (extractSelectedIds resp).length = 0 then (records.take 15).map Record.id
  else extractSelectedIds resp

/-- C7: when no id list can be parsed from the model response (or the
parsed list is empty) and the corpus is non-empty, the selector falls back
to the ids of the first fifteen records — a deterministic, non-empty
default. -/
theorem selector_fallback (resp : String) (records : List Record)
    (hfail : extractSelectedIds resp = []) (hne : records ≠ []) :
    selectIdsOrFallback resp records = (records.take 15).map Record.id ∧
    selectIdsOrFallback resp records ≠ [] := by
  have hsel : selectIdsOrFallback resp records = (records.take 15).map Record.id := by
    rw [selectIdsOrFallback, if_pos (by rw [hfail]; rfl)]
  refine ⟨hsel, ?_⟩
  rw [hsel]
  cases records with
  | nil => exact absurd rfl hne
  | cons r rest => simp

/-- Closed instance of `selector_fallback` at a prose-only model response
and a one-record corpus. -/
theorem selector_fallback_witness :
    selectIdsOrFallback "I cannot find relevant records."
        [Record.email 7 "a.eml" "x" "" "" "" "hello"] =
      [7] ∧
    selectIdsOrFallback "I cannot find relevant records."
        [Record.email 7 "a.eml" "x" "" "" "" "hello"] ≠ [] := by
  have h := selector_fallback "I cannot find relevant records."
    [Record.email 7 "a.eml" "x" "" "" "" "hello"] (by decide) (by decide)
  exact ⟨by rw [h.1]; decide, h.2⟩

/-! ## The ask endpoints without a credential (claim C8)

Both `/api/ask` handlers validate the question and the corpus, then — when
`OPENAI_API_KEY` is absent — reply with HTTP 200 and a fixed placeholder
answer instead of proceeding to the model call.  `llmPath` marks the
continuation into the network code, which is outside this embedding. -/

inductive AskOutcome where
  | clientError (status : Nat) (message : String)
  | answer (body : String)
  | llmPath
deriving DecidableEq

/-- The select-then-answer `/api/ask` handler (server.js lines 791–800) up
to its first model call. -/
def askHandlerSelect (question : Option String) (store : List Record)
    (apiKey : Option String) : AskOutcome :=
  match question with
  | none => .clientError 400 "No question provided."
  | some q =>
    if q = "" then .clientError 400 "No question provided."
    else if store.length = 0 then .clientError 400 "No data loaded."
    else
      match apiKey with
      | none => .answer "No OPENAI_API_KEY set in .env. Add your key and restart."
      | some _ => .llmPath

/-- The reviewer-variant `/api/ask` handler (server.js lines 371–386) up to
its model call; `records = none` models a request body whose `records`
field is not an array. -/
def askHandlerReviewer (question : Option String) (records : Option (List Record))
    (apiKey : Option String) : AskOutcome :=
  match question with
  | none => .clientError 400 "No question provided."
  | some q =>
    if q = "" then .clientError 400 "No question provided."
    else
      match records with
      | none => .clientError 400 "No records loaded."
      | some rs =>
        if rs.length = 0 then .clientError 400 "No records loaded."
        else
          match apiKey with
          | none => .answer ("No OPENAI_API_KEY set in .env\n\n" ++
              toString rs.length ++ " records loaded. Set the key to query them.")
          | some _ => .llmPath

/-- C8: with a question and a non-empty corpus but no configured
credential, both ask handlers return a successful answer payload holding
the fixed placeholder text — never an error response. -/
theorem ask_no_credential_placeholder (q : String) (store : List Record)
    (hq : q ≠ "") (hstore : store ≠ []) :
    askHandlerSelect (some q) store none =
      .answer "No OPENAI_API_KEY set in .env. Add your key and restart." ∧
    askHandlerReviewer (some q) (some store) none =
      .answer ("No OPENAI_API_KEY set in .env\n\n" ++ toString store.length ++
        " records loaded. Set the key to query them.") ∧
    ∀ st msg, askHandlerSelect (some q) store none ≠ .clientError st msg := by
  have hlen : ¬ store.length = 0 := by
    simpa [List.length_eq_zero] using hstore
  refine ⟨?_, ?_, ?_⟩
  · rw [askHandlerSelect]
    rw [if_neg hq, if_neg hlen]
  · rw [askHandlerReviewer]
    rw [if_neg hq, if_neg hlen]
  · intro st msg
    rw [askHandlerSelect, if_neg hq, if_neg hlen]
    intro hcontra
    cases hcontra

/-- Closed instance of `ask_no_credential_placeholder`. -/
theorem ask_no_credential_placeholder_witness :
    askHandlerSelect (some "who emailed?") [Record.email 1 "a.eml" "x" "" "" "" "hi"] none =
      AskOutcome.answer "No OPENAI_API_KEY set in .env. Add your key and restart." :=
  (ask_no_credential_placeholder "who emailed?" [Record.email 1 "a.eml" "x" "" "" "" "hi"]
    (by decide) (by decide)).1

/-! ## Loading the store (claim C9; loadAllFolder, server.js lines 693–714,
and loadFromZipBuffer, part_000 lines 226–256)

File acquisition and the binary document extractors are external
collaborators: a `FolderFile`/`ZipEntry` carries the file's name, its text
content (used when the extension is `.eml`) and the extractor outcome used
for attachment extensions (`Except.error` models the extractor throwing,
which `parseAttachment` turns into the visible placeholder string).  Read
errors simply skip a file and add no record, so they need no
representation in the membership invariant. -/

structure FolderFile where
  name : String
  content : String
  extracted : Except Unit String

structure ZipEntry where
  entryName : String
  isDirectory : Bool
  content : String
  extracted : Except Unit String

/-- Node `path.extname`: the suffix from the last dot, or empty when there is no
dot or the only dot starts the name. -/
def extnameL (l : List Char) : List Char :=
  if (l.reverse.takeWhile (fun c => c ≠ '.')).length = l.length then []
  else if l.length - (l.reverse.takeWhile (fun c => c ≠ '.')).length - 1 = 0 then []
  else l.drop (l.length - (l.reverse.takeWhile (fun c => c ≠ '.')).length - 1)

/-- Node `path.basename` on a non-directory entry name: the last `/`-separated
segment. -/
def basenameL (l : List Char) : List Char :=
  (l.reverse.takeWhile (fun c => c ≠ '/')).reverse

/-- The pass `ext.replace(".", "")`: drop the first dot. -/
def removeFirstDot (l : List Char) : List Char :=
  match idxOfSub ['.'] l with
  | some i => l.take i ++ l.drop (i + 1)
  | none => l

def ATTACHMENT_EXTS : List String := [".pdf", ".docx", ".doc", ".xlsx", ".pptx"]

/-- Functions `parseAttachment` / `parseAttachmentFromBuffer`: extension-tagged
record with the sanitized extractor output (or the catch branch's
placeholder) as body. -/
def parseAttachmentModel (name : String) (extracted : Except Unit String)
    (id : Nat) : Record :=
  Record.attachment id name
    ((upperL (removeFirstDot (lowerL (extnameL name.data)))).asString)
    (sanitize (match extracted with
      | .ok t => t
      | .error _ => "[Could not extract text from " ++ name ++ "]"))

/-- Stable insertion sort by a string key, modelling the deterministic
name ordering of `readdirSync().sort()` and the zip entry sort. -/
def insertByKey {α : Type} (key : α → String) (f : α) : List α → List α
  | [] => [f]
  | g :: rest =>
    if key f ≤ key g then f :: g :: rest else g :: insertByKey key f rest

def sortByKey {α : Type} (key : α → String) : List α → List α
  | [] => []
  | f :: rest => insertByKey key f (sortByKey key rest)

/-- The shared load loop: `.eml` files go through `parseEml` and are kept
when any identifying field is non-empty; attachment extensions go through
the extractor model and are kept when the body is longer than 20
characters; other files are skipped without consuming an id. -/
def loadFilesGo (ext : JsExt) :
    List (String × String × Except Unit String) → Nat → List Record
  | [], _ => []
  | (name, content, extracted) :: rest, id =>
    if (lowerL (extnameL name.data)).asString = ".eml" then
      if (parseEml ext content (id + 1) name).fromF ≠ "" ∨
          (parseEml ext content (id + 1) name).toF ≠ "" ∨
          (parseEml ext content (id + 1) name).subject ≠ "" ∨
          (parseEml ext content (id + 1) name).body ≠ "" then
        parseEml ext content (id + 1) name :: loadFilesGo ext rest (id + 1)
      else loadFilesGo ext rest (id + 1)
    else if (lowerL (extnameL name.data)).asString ∈ ATTACHMENT_EXTS then
      if (parseAttachmentModel name extracted (id + 1)).body ≠ "" ∧
          20 < (parseAttachmentModel name extracted (id + 1)).body.length then
        parseAttachmentModel name extracted (id + 1) :: loadFilesGo ext rest (id + 1)
      else loadFilesGo ext rest (id + 1)
    else loadFilesGo ext rest id

/-- Function `loadAllFolder`: deterministic name order, then the load loop. -/
def loadAllFolder (ext : JsExt) (files : List FolderFile) : List Record :=
  loadFilesGo ext
    ((sortByKey FolderFile.name files).map (fun f => (f.name, f.content, f.extracted))) 0

/-- Function `loadFromZipBuffer`: drop directories and macOS metadata entries, sort
by entry name, take each entry's basename, then the same load loop. -/
def loadFromZipBuffer (ext : JsExt) (entries : List ZipEntry) : List Record :=
  loadFilesGo ext
    ((sortByKey ZipEntry.entryName
        (entries.filter (fun e => ¬ e.isDirectory ∧
          ¬ ("__MACOSX".data.isPrefixOf e.entryName.data)))).map
      (fun e => ((basenameL e.entryName.data).asString, e.content, e.extracted))) 0

/-- The retention invariant of claim C9. -/
def recordWellFormed (r : Record) : Prop :=
  if r.isAttachment then 20 < r.body.length
  else r.fromF ≠ "" ∨ r.toF ≠ "" ∨ r.subject ≠ "" ∨ r.body ≠ ""

theorem loadFilesGo_wellFormed (ext : JsExt) :
    ∀ files id, ∀ r ∈ loadFilesGo ext files id, recordWellFormed r := by
  intro files
  induction files with
  | nil =>
    intro id r hr
    simp [loadFilesGo] at hr
  | cons f rest ih =>
    intro id r hr
    obtain ⟨name, content, extracted⟩ := f
    rw [loadFilesGo] at hr
    by_cases h1 : (lowerL (extnameL name.data)).asString = ".eml"
    · rw [if_pos h1] at hr
      by_cases h2 : (parseEml ext content (id + 1) name).fromF ≠ "" ∨
          (parseEml ext content (id + 1) name).toF ≠ "" ∨
          (parseEml ext content (id + 1) name).subject ≠ "" ∨
          (parseEml ext content (id + 1) name).body ≠ ""
      · rw [if_pos h2] at hr
        rcases List.mem_cons.mp hr with h | h
        · subst h
          rw [recordWellFormed, if_neg (by rw [show (parseEml ext content (id + 1)
              name).isAttachment = false from rfl]; simp)]
          exact h2
        · exact ih _ r h
      · rw [if_neg h2] at hr
        exact ih _ r hr
    · rw [if_neg h1] at hr
      by_cases h3 : (lowerL (extnameL name.data)).asString ∈ ATTACHMENT_EXTS
      · rw [if_pos h3] at hr
        by_cases h4 : (parseAttachmentModel name extracted (id + 1)).body ≠ "" ∧
            20 < (parseAttachmentModel name extracted (id + 1)).body.length
        · rw [if_pos h4] at hr
          rcases List.mem_cons.mp hr with h | h
          · subst h
            rw [recordWellFormed, if_pos (by rw [show (parseAttachmentModel name
                extracted (id + 1)).isAttachment = true from rfl])]
            exact h4.2
          · exact ih _ r h
        · rw [if_neg h4] at hr
          exact ih _ r hr
      · rw [if_neg h3] at hr
        exact ih _ r hr

/-- C9: every record in the store after either load operation carries
non-empty identifying content: emails have at least one non-empty field
among from, to, subject and body; attachments have a body strictly longer
than 20 characters.  Records failing these filters are never added. -/
theorem load_records_identifying (ext : JsExt) (files : List FolderFile)
    (entries : List ZipEntry) :
    (∀ r ∈ loadAllFolder ext files, recordWellFormed r) ∧
    (∀ r ∈ loadFromZipBuffer ext entries, recordWellFormed r) :=
  ⟨fun r hr => loadFilesGo_wellFormed ext _ 0 r hr,
    fun r hr => loadFilesGo_wellFormed ext _ 0 r hr⟩

set_option maxRecDepth 10000 in
/-- Closed instance of `load_records_identifying`: a one-file folder and a
one-entry archive, each with an `.eml` carrying a subject. -/
theorem load_records_identifying_witness :
    recordWellFormed (parseEml nullExt "Subject: Hi\n\nYo" 1 "m.eml") ∧
    recordWellFormed (parseEml nullExt "Subject: Zip\n\nYo" 1 "z.eml") :=
  ⟨(load_records_identifying nullExt [⟨"m.eml", "Subject: Hi\n\nYo", Except.ok ""⟩] []).1
      (parseEml nullExt "Subject: Hi\n\nYo" 1 "m.eml") (by decide),
    (load_records_identifying nullExt []
        [⟨"dir/z.eml", false, "Subject: Zip\n\nYo", Except.ok ""⟩]).2
      (parseEml nullExt "Subject: Zip\n\nYo" 1 "z.eml") (by decide)⟩

end Kilburn
